import Mathlib

/-!
Shallow embedding of the OneBookmark synchronization core (tree differ,
incremental bookmark writer, sync lock, sync engine) together with proofs
of the specification's claims about it.

Conventions of the embedding:
* JavaScript `Map` objects are modelled as association lists with JS
  insertion-order semantics (`mapSet` keeps the position of an existing key
  and updates its value, otherwise appends).
* Folder paths built by string concatenation in the source
  (`parentPath + "/" + title`) are modelled as lists of segments
  (`parentPath ++ [title]`); the string form is recovered with
  `String.intercalate "/"` exactly where the source compares joined strings.
* `undefined` optional fields are modelled as `Option`.
-/

set_option linter.unusedVariables false

namespace OneBookmark

/-- JS-Map `set`: update the value at an existing key in place (keeping its
insertion position), otherwise append the new binding at the end. -/
def mapSet {α β : Type} [DecidableEq α] (m : List (α × β)) (k : α) (v : β) :
    List (α × β) :=
  match m with
  | [] => [(k, v)]
  | (k1, v1) :: rest => if k1 = k then (k, v) :: rest else (k1, v1) :: mapSet rest k v

/-- JS-Map `get`: the value bound to a key, if any. -/
def mapGet {α β : Type} [DecidableEq α] (m : List (α × β)) (k : α) : Option β :=
  match m with
  | [] => none
  | (k1, v1) :: rest => if k1 = k then some v1 else mapGet rest k

/-- JS-Map `forEach` with `set` into another map: merge the bindings of the
second map into the first, in the second map's iteration order. -/
def mergeInto {α β : Type} [DecidableEq α] (m l : List (α × β)) : List (α × β) :=
  l.foldl (fun acc kv => mapSet acc kv.1 kv.2) m

/-- The keys of a JS map, in iteration order. -/
def mapKeys {α β : Type} (m : List (α × β)) : List α := m.map Prod.fst

/-- The recursive bookmark node of `src/lib/bookmark/types.ts`: identity,
title, optional URL (the leaf/folder discriminant), optional ordered child
list.  The optional `dateAdded` timestamp plays no role in any claim and is
omitted from the embedding. -/
inductive BookmarkNode where
  | mk (id : String) (title : String) (url : Option String)
       (children : Option (List BookmarkNode))

namespace BookmarkNode

/-- Identity accessor. -/
def id : BookmarkNode → String
  | .mk i _ _ _ => i

/-- Title accessor. -/
def title : BookmarkNode → String
  | .mk _ t _ _ => t

/-- URL accessor. -/
def url : BookmarkNode → Option String
  | .mk _ _ u _ => u

/-- Children accessor. -/
def children : BookmarkNode → Option (List BookmarkNode)
  | .mk _ _ _ c => c

end BookmarkNode

/-- One flattened bookmark of the differ (`diff.ts`): URL, title and the
folder path (ancestor folder titles, not including the bookmark itself). -/
structure FlatBookmark where
  url : String
  title : String
  path : List String
deriving DecidableEq, Repr

/-- The kind of a diff entry (`diff.ts`). -/
inductive DiffType where
  | added
  | removed
  | modified
deriving DecidableEq, Repr

/-- One entry of a diff result (`diff.ts`): kind, folder path, title, URL and
the previous title (present only for `modified` entries whose title changed). -/
structure DiffItem where
  type : DiffType
  path : List String
  title : String
  url : Option String
  oldTitle : Option String
deriving DecidableEq, Repr

/-- Result of `calculateDiff` (`diff.ts`). -/
structure DiffResult where
  added : List DiffItem
  removed : List DiffItem
  modified : List DiffItem
  hasChanges : Bool
deriving DecidableEq, Repr

/-- Options of `calculateDiff`.  Modelled from the spec: the repository's
callers (`src/lib/sync/operations.ts`) pass a third options argument
`{ skipRootPath }` to `calculateDiff`, but the copy of `diff.ts` present in
the sources takes only two parameters; the option's behaviour is modelled
from the spec sentence "When `skipRootPath` is set, the first path segment
is excluded from the path-equality comparison". -/
structure DiffOptions where
  skipRootPath : Bool
deriving DecidableEq, Repr

/-- The body of `flattenBookmarks` (`diff.ts`): walk the node list in order,
threading the URL-keyed map being built; a URL-bearing node is inserted with
the current path; a node with children is flattened into a fresh child map
at `path ++ [title]` which is then merged entry-by-entry into the outer map
(the `childMap.forEach((v, k) => map.set(k, v))` of the source). -/
def flattenGo : List BookmarkNode → List String → List (String × FlatBookmark) →
    List (String × FlatBookmark)
  | [], _, m => m
  | .mk i t u c :: rest, path, m =>
    let m1 : List (String × FlatBookmark) :=
      match u with
      | some uu => mapSet m uu ⟨uu, t, path⟩
      | none => m
    let m2 : List (String × FlatBookmark) :=
      match c with
      | some cs => mergeInto m1 (flattenGo cs (path ++ [t]) [])
      | none => m1
    flattenGo rest path m2
termination_by nodes _ _ => sizeOf nodes
decreasing_by
  · simp only [List.cons.sizeOf_spec, BookmarkNode.mk.sizeOf_spec,
      Option.some.sizeOf_spec]
    omega
  · simp only [List.cons.sizeOf_spec]
    omega

/-- `flattenBookmarks` (`diff.ts`): flatten a bookmark forest into a URL-keyed
map of `FlatBookmark` entries. -/
def flattenBookmarks (nodes : List BookmarkNode) (path : List String) :
    List (String × FlatBookmark) :=
  flattenGo nodes path []

/-- The path string actually compared by `calculateDiff`: the source compares
`path.join('/')`; when `skipRootPath` is set the first segment is excluded
(see `DiffOptions`). -/
def pathKey (skipRootPath : Bool) (path : List String) : String :=
  String.intercalate "/" (if skipRootPath then path.drop 1 else path)

/-- First loop of `calculateDiff`: iterate the target map in order and emit
`added` entries (URL absent from the source map) and `modified` entries
(title or compared path differs), in target-map iteration order. -/
def diffAddedModified (sourceMap : List (String × FlatBookmark))
    (skipRootPath : Bool) :
    List (String × FlatBookmark) → List DiffItem × List DiffItem
  | [] => ([], [])
  | (u, targetItem) :: rest =>
    let tail := diffAddedModified sourceMap skipRootPath rest
    match mapGet sourceMap u with
    | none =>
      (⟨DiffType.added, targetItem.path, targetItem.title, some targetItem.url,
        none⟩ :: tail.1, tail.2)
    | some sourceItem =>
      let titleChanged : Bool := sourceItem.title != targetItem.title
      let pathChanged : Bool :=
        pathKey skipRootPath sourceItem.path != pathKey skipRootPath targetItem.path
      if titleChanged || pathChanged then
        (tail.1,
         ⟨DiffType.modified, targetItem.path, targetItem.title,
          some targetItem.url,
          if titleChanged then some sourceItem.title else none⟩ :: tail.2)
      else tail

/-- Second loop of `calculateDiff`: iterate the source map in order and emit
`removed` entries for URLs absent from the target map. -/
def diffRemoved (targetMap : List (String × FlatBookmark)) :
    List (String × FlatBookmark) → List DiffItem
  | [] => []
  | (u, sourceItem) :: rest =>
    let tail := diffRemoved targetMap rest
    match mapGet targetMap u with
    | none =>
      ⟨DiffType.removed, sourceItem.path, sourceItem.title, some sourceItem.url,
        none⟩ :: tail
    | some _ => tail

/-- `calculateDiff` (`diff.ts`): flatten both trees by URL and compute the
added/removed/modified entries; `source` is the side to be overwritten and
`target` the side that survives. -/
def calculateDiff (source target : List BookmarkNode) (opts : DiffOptions) :
    DiffResult :=
  let sourceMap := flattenBookmarks source []
  let targetMap := flattenBookmarks target []
  let am := diffAddedModified sourceMap opts.skipRootPath targetMap
  let removed := diffRemoved targetMap sourceMap
  { added := am.1
    removed := removed
    modified := am.2
    hasChanges := decide (0 < am.1.length) || decide (0 < removed.length) ||
      decide (0 < am.2.length) }

/-- The set of URLs carried by a list of diff items (spec-side notion used to
compare diff results direction-independently). -/
def urlSet (l : List DiffItem) (u : String) : Prop :=
  ∃ d ∈ l, d.url = some u

/-- The lock record persisted in the shared storage slot (`lock.ts`):
holder token, acquisition epoch timestamp, operation name. -/
structure LockInfo where
  holder : String
  acquiredAt : Nat
  operation : String
deriving DecidableEq, Repr

/-- The fixed staleness threshold of the sync lock (`lock.ts`). -/
def LOCK_TIMEOUT_MS : Nat := 30000

/-- `isLockExpired` (`lock.ts`): `Date.now() - lock.acquiredAt >
LOCK_TIMEOUT_MS` at the given current time (natural subtraction matches the
JS comparison: a future-dated record is not expired either way). -/
def isLockExpired (now : Nat) (lock : LockInfo) : Bool :=
  decide (LOCK_TIMEOUT_MS < now - lock.acquiredAt)

/-- The free-or-expired test `acquireLock` performs before writing its own
record: the slot is empty, or the stored record is stale. -/
def freeOrExpired (now : Nat) (slot : Option LockInfo) : Bool :=
  match slot with
  | none => true
  | some l => isLockExpired now l

/-- An uninterfered run of `acquireLock` (`lock.ts`): the `while` loop polls
the slot once per iteration; with no concurrent writer the slot never
changes under us, so the post-write verification re-read necessarily
observes our own record and the write branch returns the fresh lock id.
Each unsuccessful iteration sleeps 100 ms before re-checking. -/
def acquireLockSolo (slot : Option LockInfo) (lockId : String)
    (startTime timeoutMs now : Nat) : Option String :=
  if now - startTime < timeoutMs then
    match slot with
    | none => some lockId
    | some l =>
      if isLockExpired now l then some lockId
      else acquireLockSolo slot lockId startTime timeoutMs (now + 100)
  else none
termination_by (startTime + timeoutMs) - now
decreasing_by
  omega

/-- Program counter of one `acquireLock` execution in the interleaving
model: still polling, written its record and about to verify, or returned. -/
inductive LockPc where
  | idle
  | wrote
  | done (result : Option String)
deriving DecidableEq, Repr

/-- Global state of two interleaved `acquireLock` calls over the single
shared storage slot: slot contents, current time, and each caller's control
point. -/
structure LockSys where
  slot : Option LockInfo
  now : Nat
  pcA : LockPc
  pcB : LockPc
deriving DecidableEq, Repr

/-- Interleaved small-step semantics of two concurrent `acquireLock` calls
(`lock.ts`).  Each caller may: write its own record after observing the slot
free or expired (the read-check and write are separated only by synchronous
code, so they form one step, but the *verification* read happens 50 ms
later, after which the other caller's write may have landed — last write
wins at the storage layer); verify successfully (slot still holds its own
token) and return it; verify unsuccessfully and resume polling; or give up
on timeout and return null.  Time passes nondeterministically. -/
inductive LockStep (idA idB opA opB : String) : LockSys → LockSys → Prop where
  | tick (s : LockSys) (d : Nat) :
      LockStep idA idB opA opB s { s with now := s.now + d }
  | writeA (s : LockSys) (h : s.pcA = .idle)
      (hfree : freeOrExpired s.now s.slot = true) :
      LockStep idA idB opA opB s
        { s with slot := some ⟨idA, s.now, opA⟩, pcA := .wrote }
  | giveUpA (s : LockSys) (h : s.pcA = .idle) :
      LockStep idA idB opA opB s { s with pcA := .done none }
  | verifyOkA (s : LockSys) (h : s.pcA = .wrote)
      (hv : s.slot.map LockInfo.holder = some idA) :
      LockStep idA idB opA opB s { s with pcA := .done (some idA) }
  | verifyFailA (s : LockSys) (h : s.pcA = .wrote)
      (hv : s.slot.map LockInfo.holder ≠ some idA) :
      LockStep idA idB opA opB s { s with pcA := .idle }
  | writeB (s : LockSys) (h : s.pcB = .idle)
      (hfree : freeOrExpired s.now s.slot = true) :
      LockStep idA idB opA opB s
        { s with slot := some ⟨idB, s.now, opB⟩, pcB := .wrote }
  | giveUpB (s : LockSys) (h : s.pcB = .idle) :
      LockStep idA idB opA opB s { s with pcB := .done none }
  | verifyOkB (s : LockSys) (h : s.pcB = .wrote)
      (hv : s.slot.map LockInfo.holder = some idB) :
      LockStep idA idB opA opB s { s with pcB := .done (some idB) }
  | verifyFailB (s : LockSys) (h : s.pcB = .wrote)
      (hv : s.slot.map LockInfo.holder ≠ some idB) :
      LockStep idA idB opA opB s { s with pcB := .idle }

/-- A caller is an observed confirmed holder when it has returned a non-null
lock id and that id is the holder token currently stored in the slot. -/
def returnedHolder (slot : Option LockInfo) (pc : LockPc) : Prop :=
  ∃ r, pc = .done (some r) ∧ slot.map LockInfo.holder = some r

/-- The accumulator loop of `countBookmarks` (`engine.ts`): `count++` on
every URL-bearing node, recursing into children. -/
def countTraverse : List BookmarkNode → Nat → Nat
  | [], acc => acc
  | .mk i t u c :: rest, acc =>
    let acc1 := if u.isSome then acc + 1 else acc
    let acc2 :=
      match c with
      | some cs => countTraverse cs acc1
      | none => acc1
    countTraverse rest acc2
termination_by nodes _ => sizeOf nodes
decreasing_by
  · simp only [List.cons.sizeOf_spec, BookmarkNode.mk.sizeOf_spec,
      Option.some.sizeOf_spec]
    omega
  · simp only [List.cons.sizeOf_spec]
    omega

/-- `countBookmarks` (`engine.ts`): number of URL-bearing nodes of a forest. -/
def countBookmarks (bookmarks : List BookmarkNode) : Nat :=
  countTraverse bookmarks 0

/-- Spec-side: the URLs of all URL-bearing nodes of a forest, in traversal
order and with duplicates kept. -/
def urlOccurrences : List BookmarkNode → List String
  | [] => []
  | .mk i t u c :: rest =>
    u.toList ++
    (match c with
     | some cs => urlOccurrences cs
     | none => []) ++ urlOccurrences rest
termination_by nodes => sizeOf nodes
decreasing_by
  · simp only [List.cons.sizeOf_spec, BookmarkNode.mk.sizeOf_spec,
      Option.some.sizeOf_spec]
    omega
  · simp only [List.cons.sizeOf_spec]
    omega

/-- Result of a sync engine operation (`types.ts`): success with a change
count, or failure with a message. -/
inductive SyncResult where
  | ok (changes : Nat)
  | err (message : String)
deriving DecidableEq, Repr

/-- `SyncEngine.push` (`engine.ts`): under the sync lock, snapshot the local
tree, wrap it into a sync envelope and write it to remote storage; on
success report `changes = countBookmarks(localBookmarks)`.  The local tree
snapshot is a parameter; lock acquisition and the remote write are external
effects modelled by booleans saying whether they succeed (a failure of
either surfaces as an error result through the catch block). -/
def syncEnginePush (localBookmarks : List BookmarkNode)
    (lockOk writeOk : Bool) : SyncResult :=
  if lockOk then
    if writeOk then .ok (countBookmarks localBookmarks)
    else .err "upload failed"
  else .err "lock failed"

-- ===================================================================
-- Incremental writer (writer.ts): world and browser primitives
-- ===================================================================

/-- All nodes of a forest in depth-first order (spec-side helper used to
state presence of a node in the live tree). -/
def allNodes : List BookmarkNode → List BookmarkNode
  | [] => []
  | .mk i t u c :: rest =>
    BookmarkNode.mk i t u c ::
    ((match c with
      | some cs => allNodes cs
      | none => []) ++ allNodes rest)
termination_by nodes => sizeOf nodes
decreasing_by
  · simp only [List.cons.sizeOf_spec, BookmarkNode.mk.sizeOf_spec,
      Option.some.sizeOf_spec]
    omega
  · simp only [List.cons.sizeOf_spec]
    omega

/-- Well-formedness of a bookmark forest: a URL-bearing node never carries a
child list (§3 of the spec: "a node with a URL is never expected to carry
children"). -/
def wfNodes : List BookmarkNode → Bool
  | [] => true
  | .mk i t u c :: rest =>
    (match u, c with
     | some _, some _ => false
     | _, _ => true) &&
    (match c with
     | some cs => wfNodes cs
     | none => true) && wfNodes rest
termination_by nodes => sizeOf nodes
decreasing_by
  · simp only [List.cons.sizeOf_spec, BookmarkNode.mk.sizeOf_spec,
      Option.some.sizeOf_spec]
    omega
  · simp only [List.cons.sizeOf_spec]
    omega

/-- The mutable browser bookmark store behind the live-tree contract (§6):
the forest returned by `browser.bookmarks.getTree()` plus a counter from
which the store assigns fresh ids on `create`. -/
structure World where
  tree : List BookmarkNode
  fresh : Nat

/-- The ids of all nodes of a forest, in depth-first order (spec-side). -/
def idsOf (t : List BookmarkNode) : List String :=
  (allNodes t).map BookmarkNode.id

/-- The (id, url) projection of all nodes of a forest (spec-side: the
identity-preservation claim is about these pairs surviving a
reconciliation). -/
def idUrlPairs (t : List BookmarkNode) : List (String × Option String) :=
  (allNodes t).map fun n => (n.id, n.url)

/-- Depth-first search of a node by id (the store is id-addressed). -/
def findId : List BookmarkNode → String → Option BookmarkNode
  | [], _ => none
  | .mk i t u c :: rest, x =>
    if i = x then some (.mk i t u c)
    else
      match
        (match c with
         | some cs => findId cs x
         | none => none) with
      | some n => some n
      | none => findId rest x
termination_by nodes _ => sizeOf nodes
decreasing_by
  · simp only [List.cons.sizeOf_spec, BookmarkNode.mk.sizeOf_spec,
      Option.some.sizeOf_spec]
    omega
  · simp only [List.cons.sizeOf_spec]
    omega

/-- Insert an element into a list at an index, clamping to the end when the
index is out of range (the embedding's index semantics for `create`/`move`;
the writer's own in-memory mirror uses the same remove-then-splice-in
interpretation). -/
def insertAt {α : Type} : List α → Nat → α → List α
  | l, 0, a => a :: l
  | [], _ + 1, a => [a]
  | x :: l, n + 1, a => x :: insertAt l n a

/-- `browser.bookmarks.remove`: delete the node with the given id.  Fails if
the id is absent or the node still has children (the browser refuses to
`remove` a non-empty folder; the writer only ever removes leaf bookmarks). -/
def removeId : List BookmarkNode → String → Option (List BookmarkNode)
  | [], _ => none
  | .mk i t u c :: rest, x =>
    if i = x then
      if (c.getD []).isEmpty then some rest else none
    else
      match
        (match c with
         | some cs => removeId cs x
         | none => none) with
      | some cs2 => some (.mk i t u (some cs2) :: rest)
      | none =>
        match removeId rest x with
        | some rest2 => some (.mk i t u c :: rest2)
        | none => none
termination_by nodes _ => sizeOf nodes
decreasing_by
  · simp only [List.cons.sizeOf_spec, BookmarkNode.mk.sizeOf_spec,
      Option.some.sizeOf_spec]
    omega
  · simp only [List.cons.sizeOf_spec]
    omega

/-- `browser.bookmarks.update(id, { title })`: retitle the node with the
given id; fails if the id is absent. -/
def updateTitleById : List BookmarkNode → String → String → Option (List BookmarkNode)
  | [], _, _ => none
  | .mk i t u c :: rest, x, newTitle =>
    if i = x then some (.mk i newTitle u c :: rest)
    else
      match
        (match c with
         | some cs => updateTitleById cs x newTitle
         | none => none) with
      | some cs2 => some (.mk i t u (some cs2) :: rest)
      | none =>
        match updateTitleById rest x newTitle with
        | some rest2 => some (.mk i t u c :: rest2)
        | none => none
termination_by nodes _ _ => sizeOf nodes
decreasing_by
  · simp only [List.cons.sizeOf_spec, BookmarkNode.mk.sizeOf_spec,
      Option.some.sizeOf_spec]
    omega
  · simp only [List.cons.sizeOf_spec]
    omega

/-- Detach the node (and its subtree) with the given id, returning it
together with the remaining forest. -/
def detachId : List BookmarkNode → String → Option (BookmarkNode × List BookmarkNode)
  | [], _ => none
  | .mk i t u c :: rest, x =>
    if i = x then some (.mk i t u c, rest)
    else
      match
        (match c with
         | some cs => detachId cs x
         | none => none) with
      | some (n, cs2) => some (n, .mk i t u (some cs2) :: rest)
      | none =>
        match detachId rest x with
        | some (n, rest2) => some (n, .mk i t u c :: rest2)
        | none => none
termination_by nodes _ => sizeOf nodes
decreasing_by
  · simp only [List.cons.sizeOf_spec, BookmarkNode.mk.sizeOf_spec,
      Option.some.sizeOf_spec]
    omega
  · simp only [List.cons.sizeOf_spec]
    omega

/-- Insert a node into the child list of the folder with id `pid` at the
clamped index (append when no index is given).  Fails if `pid` is absent or
names a URL-bearing node (the browser refuses a bookmark as parent). -/
def insertUnder : List BookmarkNode → String → BookmarkNode → Option Nat →
    Option (List BookmarkNode)
  | [], _, _, _ => none
  | .mk i t u c :: rest, pid, n, idx =>
    if i = pid then
      match u with
      | some _ => none
      | none =>
        let cs := c.getD []
        let j :=
          match idx with
          | some j => j
          | none => cs.length
        some (.mk i t none (some (insertAt cs j n)) :: rest)
    else
      match
        (match c with
         | some cs => insertUnder cs pid n idx
         | none => none) with
      | some cs2 => some (.mk i t u (some cs2) :: rest)
      | none =>
        match insertUnder rest pid n idx with
        | some rest2 => some (.mk i t u c :: rest2)
        | none => none
termination_by nodes _ _ _ => sizeOf nodes
decreasing_by
  · simp only [List.cons.sizeOf_spec, BookmarkNode.mk.sizeOf_spec,
      Option.some.sizeOf_spec]
    omega
  · simp only [List.cons.sizeOf_spec]
    omega

/-- `browser.bookmarks.move(id, { parentId, index })`: atomically detach the
node and insert it under the new parent at the clamped index; fails (leaving
the tree unchanged) if the id or the destination parent cannot be resolved
— in particular when the destination lies inside the moved subtree. -/
def moveToParent (tree : List BookmarkNode) (x pid : String) (idx : Nat) :
    Option (List BookmarkNode) :=
  match detachId tree x with
  | none => none
  | some (n, t2) => insertUnder t2 pid n (some idx)

/-- Find a node by id in the top level of a list, returning it and the list
without it. -/
def extractTop : List BookmarkNode → String → Option (BookmarkNode × List BookmarkNode)
  | [], _ => none
  | n :: rest, x =>
    if n.id = x then some (n, rest)
    else
      match extractTop rest x with
      | some (m, rest2) => some (m, n :: rest2)
      | none => none

/-- The position of an id in the top level of a list (`indexOf`). -/
def idIndexOf : List BookmarkNode → String → Option Nat
  | [], _ => none
  | n :: rest, x =>
    if n.id = x then some 0
    else (idIndexOf rest x).map (· + 1)

/-- `browser.bookmarks.move(id, { index })`: reposition the node within its
current sibling list at the clamped index (remove-then-splice-in, matching
the writer's own in-memory mirror); fails if the id is absent. -/
def moveWithinParent : List BookmarkNode → String → Nat → Option (List BookmarkNode)
  | [], _, _ => none
  | .mk i t u c :: rest, x, idx =>
    match extractTop (.mk i t u c :: rest) x with
    | some (n, rest2) => some (insertAt rest2 idx n)
    | none =>
      match
        (match c with
         | some cs => moveWithinParent cs x idx
         | none => none) with
      | some cs2 => some (.mk i t u (some cs2) :: rest)
      | none =>
        match moveWithinParent rest x idx with
        | some rest2 => some (.mk i t u c :: rest2)
        | none => none
termination_by nodes _ _ => sizeOf nodes
decreasing_by
  · simp only [List.cons.sizeOf_spec, BookmarkNode.mk.sizeOf_spec,
      Option.some.sizeOf_spec]
    omega
  · simp only [List.cons.sizeOf_spec]
    omega

/-- `browser.bookmarks.create`: insert a fresh node (bookmark, or folder
with an empty child list) under `parentId` at the clamped index, the store
assigning a fresh id; fails if the parent cannot be resolved. -/
def createNode (w : World) (parentId title : String) (url : Option String)
    (idx : Option Nat) : Option (String × World) :=
  let newId := "new:" ++ toString w.fresh
  let node : BookmarkNode :=
    .mk newId title url
      (match url with
       | some _ => none
       | none => some [])
  match insertUnder w.tree parentId node idx with
  | some t2 => some (newId, { tree := t2, fresh := w.fresh + 1 })
  | none => none

/-- Position of a bookmark in the live tree: parent folder path plus sibling
index (`BookmarkLocation`, writer.ts). -/
structure BookmarkLocation where
  parentPath : List String
  index : Nat
deriving DecidableEq, Repr

/-- The writer's one-shot index over the live tree (`BrowserBookmarkIndex`,
writer.ts): by-URL map, folder-path map, URL-location map, and the by-id
map of every node. -/
structure BrowserBookmarkIndex where
  byUrl : List (String × BookmarkNode)
  byPath : List (List String × BookmarkNode)
  urlLocation : List (String × BookmarkLocation)
  all : List (String × BookmarkNode)

/-- The traversal loop of `buildBrowserIndex` (writer.ts): skip untitled
root containers (recursing into them with the empty path), key URL nodes by
URL with their location, key folders by path, and recurse into children. -/
def buildTraverse : List BookmarkNode → List String → Nat → BrowserBookmarkIndex →
    BrowserBookmarkIndex
  | [], _, _, idx => idx
  | .mk i t u c :: rest, parentPath, pos, idx =>
    let node : BookmarkNode := .mk i t u c
    let idx1 : BrowserBookmarkIndex := { idx with all := mapSet idx.all i node }
    if t = "" && c.isSome then
      let idx2 := buildTraverse (c.getD []) [] 0 idx1
      buildTraverse rest parentPath (pos + 1) idx2
    else
      let idx2 : BrowserBookmarkIndex :=
        match u with
        | some uu =>
          { idx1 with byUrl := mapSet idx1.byUrl uu node,
                      urlLocation := mapSet idx1.urlLocation uu ⟨parentPath, pos⟩ }
        | none =>
          { idx1 with byPath := mapSet idx1.byPath (parentPath ++ [t]) node }
      let idx3 :=
        match c with
        | some cs =>
          buildTraverse cs (if u.isSome then parentPath else parentPath ++ [t]) 0 idx2
        | none => idx2
      buildTraverse rest parentPath (pos + 1) idx3
termination_by nodes _ _ _ => sizeOf nodes
decreasing_by
  · simp only [List.cons.sizeOf_spec]
    rcases c with _ | cs
    · simp at *
    · simp only [Option.getD, BookmarkNode.mk.sizeOf_spec, Option.some.sizeOf_spec]
      omega
  · simp only [List.cons.sizeOf_spec]
    omega
  · simp only [List.cons.sizeOf_spec, BookmarkNode.mk.sizeOf_spec,
      Option.some.sizeOf_spec]
    omega
  · simp only [List.cons.sizeOf_spec]
    omega

/-- `buildBrowserIndex` (writer.ts). -/
def buildBrowserIndex (w : World) : BrowserBookmarkIndex :=
  buildTraverse w.tree [] 0 ⟨[], [], [], []⟩

/-- `getRootFolders` (writer.ts): map each top-level container of the live
tree's root to its id, keyed by its one-segment path. -/
def getRootFolders (w : World) : List (List String × String) :=
  match w.tree with
  | [] => []
  | root :: _ =>
    (root.children.getD []).foldl (fun m f => mapSet m [f.title] f.id) []

/-- Outcome of `ensureParentFolder`: an id, the `return null` path, or a
thrown `browser.bookmarks.create` failure (caught by the calling phase). -/
inductive EnsureResult where
  | ok (id : String)
  | missing
  | failed
deriving DecidableEq, Repr

/-- `ensureParentFolder` (writer.ts): resolve a parent path to a folder id —
a fixed root container, an already-indexed folder, or by recursively
ensuring the parent path and creating (and indexing) the missing folder
under it.  The world and the writer index are threaded since folder
creation mutates both. -/
def ensureParentFolder : List String → World → BrowserBookmarkIndex →
    List (List String × String) → EnsureResult × World × BrowserBookmarkIndex
  | parentPath, w, bidx, rootFolders =>
    if parentPath = [] then (.missing, w, bidx)
    else
      match mapGet rootFolders parentPath with
      | some rid => (.ok rid, w, bidx)
      | none =>
        match mapGet bidx.byPath parentPath with
        | some existing => (.ok existing.id, w, bidx)
        | none =>
          let folderTitle := parentPath.getLastD ""
          match ensureParentFolder parentPath.dropLast w bidx rootFolders with
          | (.ok pid, w1, bidx1) =>
            match createNode w1 pid folderTitle none none with
            | some (newId, w2) =>
              let newNode : BookmarkNode := .mk newId folderTitle none (some [])
              (.ok newId, w2,
               { bidx1 with byPath := mapSet bidx1.byPath parentPath newNode,
                            all := mapSet bidx1.all newId newNode })
            | none => (.failed, w1, bidx1)
          | (.missing, w1, bidx1) => (.missing, w1, bidx1)
          | (.failed, w1, bidx1) => (.failed, w1, bidx1)
termination_by parentPath _ _ _ => parentPath.length
decreasing_by
  have h2 : parentPath ≠ [] := by assumption
  have h3 : 0 < parentPath.length := List.length_pos.mpr h2
  simp only [List.length_dropLast]
  omega

/-- A planned creation (`toCreate` entry, writer.ts). -/
structure CreateItem where
  node : BookmarkNode
  parentPath : List String
  index : Nat

/-- A planned title update (`toUpdate` entry, writer.ts). -/
structure UpdateItem where
  node : BookmarkNode
  browserId : String

/-- A planned cross-folder move (`toMove` entry, writer.ts). -/
structure MoveItem where
  node : BookmarkNode
  browserId : String
  newParentPath : List String
  newIndex : Nat

/-- A planned same-folder reorder (`toReorder` entry, writer.ts). -/
structure ReorderItem where
  node : BookmarkNode
  browserId : String
  parentPath : List String
  newIndex : Nat

/-- The five change lists computed by `computeChanges` (writer.ts). -/
structure ComputedChanges where
  toCreate : List CreateItem
  toDelete : List String
  toUpdate : List UpdateItem
  toMove : List MoveItem
  toReorder : List ReorderItem

/-- JS-Set `add`. -/
def setAdd {α : Type} [DecidableEq α] (s : List α) (a : α) : List α :=
  if a ∈ s then s else s ++ [a]

/-- Mutable accumulator threaded through the classification loops of
`computeChanges` (writer.ts): the growing change lists plus the `remoteUrls`
and `remotePaths` sets. -/
structure ChangesAcc where
  toCreate : List CreateItem
  toUpdate : List UpdateItem
  toMove : List MoveItem
  toReorder : List ReorderItem
  remoteUrls : List String
  remotePaths : List (List String)

/-- The empty classification accumulator. -/
def emptyChangesAcc : ChangesAcc := ⟨[], [], [], [], [], []⟩

/-- Classification of one URL-bearing desired node against the live index
(shared by `traverseRemote` and the root-level case of
`processBookmarkTree`, writer.ts): absent URL → create; differing parent
path → move; differing sibling index → reorder; differing title → update. -/
def classifyUrlNode (bidx : BrowserBookmarkIndex) (node : BookmarkNode)
    (uu : String) (parentPath : List String) (pos : Nat) (acc : ChangesAcc) :
    ChangesAcc :=
  let acc1 := { acc with remoteUrls := setAdd acc.remoteUrls uu }
  match mapGet bidx.byUrl uu with
  | none => { acc1 with toCreate := acc1.toCreate ++ [⟨node, parentPath, pos⟩] }
  | some existing =>
    let currentLocation := mapGet bidx.urlLocation uu
    let acc2 :=
      if currentLocation.map BookmarkLocation.parentPath ≠ some parentPath then
        { acc1 with toMove := acc1.toMove ++ [⟨node, existing.id, parentPath, pos⟩] }
      else if currentLocation.map BookmarkLocation.index ≠ some pos then
        { acc1 with toReorder := acc1.toReorder ++ [⟨node, existing.id, parentPath, pos⟩] }
      else acc1
    if existing.title ≠ node.title then
      { acc2 with toUpdate := acc2.toUpdate ++ [⟨node, existing.id⟩] }
    else acc2

/-- `traverseRemote` (writer.ts): walk the desired tree accumulating folder
paths and sibling indices, classifying every URL-bearing node. -/
def traverseRemote (bidx : BrowserBookmarkIndex) :
    List BookmarkNode → List String → Nat → ChangesAcc → ChangesAcc
  | [], _, _, acc => acc
  | .mk i t u c :: rest, parentPath, pos, acc =>
    match u with
    | some uu =>
      let acc2 := classifyUrlNode bidx (.mk i t u c) uu parentPath pos acc
      traverseRemote bidx rest parentPath (pos + 1) acc2
    | none =>
      match c with
      | some cs =>
        let currentPath := parentPath ++ [t]
        let acc1 := { acc with remotePaths := setAdd acc.remotePaths currentPath }
        let acc2 := traverseRemote bidx cs currentPath 0 acc1
        traverseRemote bidx rest parentPath (pos + 1) acc2
      | none => traverseRemote bidx rest parentPath (pos + 1) acc
termination_by nodes _ _ _ => sizeOf nodes
decreasing_by
  · simp only [List.cons.sizeOf_spec]
    omega
  · simp only [List.cons.sizeOf_spec, BookmarkNode.mk.sizeOf_spec,
      Option.some.sizeOf_spec]
    omega
  · simp only [List.cons.sizeOf_spec]
    omega
  · simp only [List.cons.sizeOf_spec]
    omega

/-- `processBookmarkTree` (writer.ts): handle the top level of the desired
forest — recurse transparently into untitled roots, classify top-level
folders via `traverseRemote` under path `/title`, and classify rare
root-level bookmarks with the empty parent path. -/
def processBookmarkTree (bidx : BrowserBookmarkIndex) :
    List BookmarkNode → Nat → ChangesAcc → ChangesAcc
  | [], _, acc => acc
  | .mk i t u c :: rest, pos, acc =>
    if t = "" && c.isSome then
      let acc1 := processBookmarkTree bidx (c.getD []) 0 acc
      processBookmarkTree bidx rest (pos + 1) acc1
    else if u.isNone && c.isSome then
      let folderPath := [t]
      let acc1 := { acc with remotePaths := setAdd acc.remotePaths folderPath }
      let acc2 := traverseRemote bidx (c.getD []) folderPath 0 acc1
      processBookmarkTree bidx rest (pos + 1) acc2
    else
      match u with
      | some uu =>
        let acc2 := classifyUrlNode bidx (.mk i t u c) uu [] pos acc
        processBookmarkTree bidx rest (pos + 1) acc2
      | none => processBookmarkTree bidx rest (pos + 1) acc
termination_by nodes _ _ => sizeOf nodes
decreasing_by
  · simp only [List.cons.sizeOf_spec]
    rcases c with _ | cs
    · simp at *
    · simp only [Option.getD, BookmarkNode.mk.sizeOf_spec, Option.some.sizeOf_spec]
      omega
  · simp only [List.cons.sizeOf_spec]
    omega
  · simp only [List.cons.sizeOf_spec]
    omega
  · simp only [List.cons.sizeOf_spec]
    omega
  · simp only [List.cons.sizeOf_spec]
    omega

/-- The delete scan of `computeChanges` (writer.ts): every by-URL entry of
the live index whose URL the desired tree does not mention is deleted. -/
def computeDeletes (byUrl : List (String × BookmarkNode))
    (remoteUrls : List String) : List String :=
  byUrl.foldl
    (fun acc kv => if kv.1 ∈ remoteUrls then acc else acc ++ [kv.2.id]) []

/-- `computeChanges` (writer.ts).  The unused `_rootFolders` parameter of the
source is omitted. -/
def computeChanges (remoteBookmarks : List BookmarkNode)
    (bidx : BrowserBookmarkIndex) : ComputedChanges :=
  let acc := processBookmarkTree bidx remoteBookmarks 0 emptyChangesAcc
  { toCreate := acc.toCreate
    toDelete := computeDeletes bidx.byUrl acc.remoteUrls
    toUpdate := acc.toUpdate
    toMove := acc.toMove
    toReorder := acc.toReorder }

/-- Result of `writeBookmarksIncremental` (writer.ts). -/
structure WriteResult where
  success : Bool
  changes : Nat
  errors : List String
deriving DecidableEq, Repr

/-- Phase 1 (writer.ts): attempt every delete independently, counting
successes and collecting an error per failure. -/
def deletePhase : List String → World → Nat → List String →
    World × Nat × List String
  | [], w, changes, errors => (w, changes, errors)
  | id :: rest, w, changes, errors =>
    match removeId w.tree id with
    | some t2 => deletePhase rest { w with tree := t2 } (changes + 1) errors
    | none => deletePhase rest w changes (errors ++ ["delete failed: " ++ id])

/-- Phase 2 (writer.ts): attempt every title update independently. -/
def updatePhase : List UpdateItem → World → Nat → List String →
    World × Nat × List String
  | [], w, changes, errors => (w, changes, errors)
  | item :: rest, w, changes, errors =>
    match updateTitleById w.tree item.browserId item.node.title with
    | some t2 => updatePhase rest { w with tree := t2 } (changes + 1) errors
    | none =>
      updatePhase rest w changes
        (errors ++ ["update failed: " ++ item.node.title])

/-- Phase 3 (writer.ts): attempt every cross-folder move independently,
resolving (and creating, if needed) the destination folder first; a null
parent resolution skips the item silently, a thrown resolution or move
failure records an error. -/
def movePhase : List MoveItem → World → BrowserBookmarkIndex →
    List (List String × String) → Nat → List String →
    World × BrowserBookmarkIndex × Nat × List String
  | [], w, bidx, _, changes, errors => (w, bidx, changes, errors)
  | item :: rest, w, bidx, rootFolders, changes, errors =>
    match ensureParentFolder item.newParentPath w bidx rootFolders with
    | (.ok pid, w1, bidx1) =>
      match moveToParent w1.tree item.browserId pid item.newIndex with
      | some t2 =>
        movePhase rest { w1 with tree := t2 } bidx1 rootFolders (changes + 1) errors
      | none =>
        movePhase rest w1 bidx1 rootFolders changes
          (errors ++ ["move failed: " ++ item.node.title])
    | (.missing, w1, bidx1) =>
      movePhase rest w1 bidx1 rootFolders changes errors
    | (.failed, w1, bidx1) =>
      movePhase rest w1 bidx1 rootFolders changes
        (errors ++ ["move failed: " ++ item.node.title])

/-- The within-batch loop of phase 4 (writer.ts): process the reorder items
of one folder in ascending target order, re-deriving each current index
from the in-memory mirror of the folder's child list and updating the
mirror alongside each physical move; a move failure aborts the rest of the
batch with one error. -/
def reorderLoop (parentPath : List String) :
    List ReorderItem → List BookmarkNode → World → Nat → List String →
    World × Nat × List String
  | [], _, w, changes, errors => (w, changes, errors)
  | item :: rest, currentChildren, w, changes, errors =>
    match idIndexOf currentChildren item.browserId with
    | none => reorderLoop parentPath rest currentChildren w changes errors
    | some currentIndex =>
      if currentIndex = item.newIndex then
        reorderLoop parentPath rest currentChildren w changes errors
      else
        match moveWithinParent w.tree item.browserId item.newIndex with
        | some t2 =>
          match extractTop currentChildren item.browserId with
          | some (cnode, restChildren) =>
            reorderLoop parentPath rest
              (insertAt restChildren item.newIndex cnode)
              { w with tree := t2 } (changes + 1) errors
          | none =>
            reorderLoop parentPath rest currentChildren
              { w with tree := t2 } (changes + 1) errors
        | none =>
          (w, changes,
           errors ++ ["reorder failed: " ++ String.intercalate "/" parentPath])

/-- The per-parent grouping of phase 4 (writer.ts): a JS map from parent
path to that folder's reorder items, in first-occurrence order. -/
def groupReorder (items : List ReorderItem) :
    List (List String × List ReorderItem) :=
  items.foldl
    (fun m item =>
      mapSet m item.parentPath ((mapGet m item.parentPath).getD [] ++ [item]))
    []

/-- Phase 4 (writer.ts): per folder, resolve the parent, fetch its current
child list, sort the batch by ascending target index (stably) and run the
mirror-updating loop; a failed parent resolution or subtree fetch records
one error for the batch, an unresolvable (null) parent or childless parent
skips the batch silently. -/
def reorderBatches :
    List (List String × List ReorderItem) → World → BrowserBookmarkIndex →
    List (List String × String) → Nat → List String →
    World × BrowserBookmarkIndex × Nat × List String
  | [], w, bidx, _, changes, errors => (w, bidx, changes, errors)
  | (parentPath, items) :: rest, w, bidx, rootFolders, changes, errors =>
    match ensureParentFolder parentPath w bidx rootFolders with
    | (.missing, w1, bidx1) =>
      reorderBatches rest w1 bidx1 rootFolders changes errors
    | (.failed, w1, bidx1) =>
      reorderBatches rest w1 bidx1 rootFolders changes
        (errors ++ ["reorder failed: " ++ String.intercalate "/" parentPath])
    | (.ok pid, w1, bidx1) =>
      match findId w1.tree pid with
      | none =>
        reorderBatches rest w1 bidx1 rootFolders changes
          (errors ++ ["reorder failed: " ++ String.intercalate "/" parentPath])
      | some parent =>
        match parent.children with
        | none => reorderBatches rest w1 bidx1 rootFolders changes errors
        | some currentChildren =>
          let sorted := items.mergeSort (fun a b => Nat.ble a.newIndex b.newIndex)
          match reorderLoop parentPath sorted currentChildren w1 changes errors with
          | (w2, c2, e2) => reorderBatches rest w2 bidx1 rootFolders c2 e2

/-- Phase 5 (writer.ts): attempt every creation independently in ascending
target-index order, resolving (and creating) the destination folder first;
a null parent resolution skips the item silently. -/
def createPhase : List CreateItem → World → BrowserBookmarkIndex →
    List (List String × String) → Nat → List String →
    World × BrowserBookmarkIndex × Nat × List String
  | [], w, bidx, _, changes, errors => (w, bidx, changes, errors)
  | item :: rest, w, bidx, rootFolders, changes, errors =>
    match ensureParentFolder item.parentPath w bidx rootFolders with
    | (.ok pid, w1, bidx1) =>
      match createNode w1 pid item.node.title item.node.url (some item.index) with
      | some (_, w2) =>
        createPhase rest w2 bidx1 rootFolders (changes + 1) errors
      | none =>
        createPhase rest w1 bidx1 rootFolders changes
          (errors ++ ["create failed: " ++ item.node.title])
    | (.missing, w1, bidx1) =>
      createPhase rest w1 bidx1 rootFolders changes errors
    | (.failed, w1, bidx1) =>
      createPhase rest w1 bidx1 rootFolders changes
        (errors ++ ["create failed: " ++ item.node.title])

/-- `writeBookmarksIncremental` (writer.ts): index the live tree, classify
the desired tree, then delete, update, move, reorder and create in that
order, accumulating a change count and an error list; the result reports
`success = (errors.length === 0)`. -/
def writeBookmarksIncremental (bookmarks : List BookmarkNode) (w : World) :
    WriteResult × World :=
  let bidx := buildBrowserIndex w
  let rootFolders := getRootFolders w
  let ch := computeChanges bookmarks bidx
  match deletePhase ch.toDelete w 0 [] with
  | (w1, c1, e1) =>
    match updatePhase ch.toUpdate w1 c1 e1 with
    | (w2, c2, e2) =>
      match movePhase ch.toMove w2 bidx rootFolders c2 e2 with
      | (w3, bidx3, c3, e3) =>
        match reorderBatches (groupReorder ch.toReorder) w3 bidx3 rootFolders c3 e3 with
        | (w4, bidx4, c4, e4) =>
          match createPhase (ch.toCreate.mergeSort (fun a b => Nat.ble a.index b.index))
              w4 bidx4 rootFolders c4 e4 with
          | (w5, _, c5, e5) =>
            ({ success := e5.isEmpty, changes := c5, errors := e5 }, w5)

-- ===================================================================
-- Trace view of the writer (spec-side refinement for claim C7)
-- ===================================================================

/-- The kind of one phase-level primitive operation. -/
inductive OpKind where
  | removeOp
  | updateOp
  | moveOp
  | reorderOp
  | createOp
deriving DecidableEq, Repr

/-- The outcome of one phase-level item: the primitive was applied, it
failed (with the recorded error message), or the item was skipped without
touching the store (null parent resolution, already-in-place reorder,
vanished mirror node). -/
inductive OpOutcome where
  | applied (k : OpKind)
  | failed (k : OpKind) (msg : String)
  | skipped (k : OpKind)
deriving DecidableEq, Repr

/-- Number of applied operations of a trace. -/
def countApplied (tr : List OpOutcome) : Nat :=
  (tr.filter fun o =>
    match o with
    | .applied _ => true
    | _ => false).length

/-- The error messages of a trace, in order. -/
def collectFailures (tr : List OpOutcome) : List String :=
  tr.filterMap fun o =>
    match o with
    | .failed _ m => some m
    | _ => none

/-- Trace twin of `deletePhase`: same control flow, emitting one outcome per
item instead of mutating counters. -/
def deletePhaseTrace : List String → World → List OpOutcome × World
  | [], w => ([], w)
  | id :: rest, w =>
    match removeId w.tree id with
    | some t2 =>
      match deletePhaseTrace rest { w with tree := t2 } with
      | (tr, w2) => (.applied .removeOp :: tr, w2)
    | none =>
      match deletePhaseTrace rest w with
      | (tr, w2) => (.failed .removeOp ("delete failed: " ++ id) :: tr, w2)

/-- Trace twin of `updatePhase`. -/
def updatePhaseTrace : List UpdateItem → World → List OpOutcome × World
  | [], w => ([], w)
  | item :: rest, w =>
    match updateTitleById w.tree item.browserId item.node.title with
    | some t2 =>
      match updatePhaseTrace rest { w with tree := t2 } with
      | (tr, w2) => (.applied .updateOp :: tr, w2)
    | none =>
      match updatePhaseTrace rest w with
      | (tr, w2) =>
        (.failed .updateOp ("update failed: " ++ item.node.title) :: tr, w2)

/-- Trace twin of `movePhase`. -/
def movePhaseTrace : List MoveItem → World → BrowserBookmarkIndex →
    List (List String × String) → List OpOutcome × World × BrowserBookmarkIndex
  | [], w, bidx, _ => ([], w, bidx)
  | item :: rest, w, bidx, rootFolders =>
    match ensureParentFolder item.newParentPath w bidx rootFolders with
    | (.ok pid, w1, bidx1) =>
      match moveToParent w1.tree item.browserId pid item.newIndex with
      | some t2 =>
        match movePhaseTrace rest { w1 with tree := t2 } bidx1 rootFolders with
        | (tr, w2, bidx2) => (.applied .moveOp :: tr, w2, bidx2)
      | none =>
        match movePhaseTrace rest w1 bidx1 rootFolders with
        | (tr, w2, bidx2) =>
          (.failed .moveOp ("move failed: " ++ item.node.title) :: tr, w2, bidx2)
    | (.missing, w1, bidx1) =>
      match movePhaseTrace rest w1 bidx1 rootFolders with
      | (tr, w2, bidx2) => (.skipped .moveOp :: tr, w2, bidx2)
    | (.failed, w1, bidx1) =>
      match movePhaseTrace rest w1 bidx1 rootFolders with
      | (tr, w2, bidx2) =>
        (.failed .moveOp ("move failed: " ++ item.node.title) :: tr, w2, bidx2)

/-- Trace twin of `reorderLoop`. -/
def reorderLoopTrace (parentPath : List String) :
    List ReorderItem → List BookmarkNode → World → List OpOutcome × World
  | [], _, w => ([], w)
  | item :: rest, currentChildren, w =>
    match idIndexOf currentChildren item.browserId with
    | none =>
      match reorderLoopTrace parentPath rest currentChildren w with
      | (tr, w2) => (.skipped .reorderOp :: tr, w2)
    | some currentIndex =>
      if currentIndex = item.newIndex then
        match reorderLoopTrace parentPath rest currentChildren w with
        | (tr, w2) => (.skipped .reorderOp :: tr, w2)
      else
        match moveWithinParent w.tree item.browserId item.newIndex with
        | some t2 =>
          match extractTop currentChildren item.browserId with
          | some (cnode, restChildren) =>
            match reorderLoopTrace parentPath rest
                (insertAt restChildren item.newIndex cnode)
                { w with tree := t2 } with
            | (tr, w2) => (.applied .reorderOp :: tr, w2)
          | none =>
            match reorderLoopTrace parentPath rest currentChildren
                { w with tree := t2 } with
            | (tr, w2) => (.applied .reorderOp :: tr, w2)
        | none =>
          ([.failed .reorderOp
             ("reorder failed: " ++ String.intercalate "/" parentPath)], w)

/-- Trace twin of `reorderBatches`. -/
def reorderBatchesTrace :
    List (List String × List ReorderItem) → World → BrowserBookmarkIndex →
    List (List String × String) → List OpOutcome × World × BrowserBookmarkIndex
  | [], w, bidx, _ => ([], w, bidx)
  | (parentPath, items) :: rest, w, bidx, rootFolders =>
    match ensureParentFolder parentPath w bidx rootFolders with
    | (.missing, w1, bidx1) => reorderBatchesTrace rest w1 bidx1 rootFolders
    | (.failed, w1, bidx1) =>
      match reorderBatchesTrace rest w1 bidx1 rootFolders with
      | (tr, w2, bidx2) =>
        (.failed .reorderOp
          ("reorder failed: " ++ String.intercalate "/" parentPath) :: tr,
         w2, bidx2)
    | (.ok pid, w1, bidx1) =>
      match findId w1.tree pid with
      | none =>
        match reorderBatchesTrace rest w1 bidx1 rootFolders with
        | (tr, w2, bidx2) =>
          (.failed .reorderOp
            ("reorder failed: " ++ String.intercalate "/" parentPath) :: tr,
           w2, bidx2)
      | some parent =>
        match parent.children with
        | none => reorderBatchesTrace rest w1 bidx1 rootFolders
        | some currentChildren =>
          let sorted := items.mergeSort (fun a b => Nat.ble a.newIndex b.newIndex)
          match reorderLoopTrace parentPath sorted currentChildren w1 with
          | (tr1, w2) =>
            match reorderBatchesTrace rest w2 bidx1 rootFolders with
            | (tr2, w3, bidx3) => (tr1 ++ tr2, w3, bidx3)

/-- Trace twin of `createPhase`. -/
def createPhaseTrace : List CreateItem → World → BrowserBookmarkIndex →
    List (List String × String) → List OpOutcome × World × BrowserBookmarkIndex
  | [], w, bidx, _ => ([], w, bidx)
  | item :: rest, w, bidx, rootFolders =>
    match ensureParentFolder item.parentPath w bidx rootFolders with
    | (.ok pid, w1, bidx1) =>
      match createNode w1 pid item.node.title item.node.url (some item.index) with
      | some (_, w2) =>
        match createPhaseTrace rest w2 bidx1 rootFolders with
        | (tr, w3, bidx3) => (.applied .createOp :: tr, w3, bidx3)
      | none =>
        match createPhaseTrace rest w1 bidx1 rootFolders with
        | (tr, w3, bidx3) =>
          (.failed .createOp ("create failed: " ++ item.node.title) :: tr, w3, bidx3)
    | (.missing, w1, bidx1) =>
      match createPhaseTrace rest w1 bidx1 rootFolders with
      | (tr, w3, bidx3) => (.skipped .createOp :: tr, w3, bidx3)
    | (.failed, w1, bidx1) =>
      match createPhaseTrace rest w1 bidx1 rootFolders with
      | (tr, w3, bidx3) =>
        (.failed .createOp ("create failed: " ++ item.node.title) :: tr, w3, bidx3)

/-- The full trace view of one `writeBookmarksIncremental` run: the five
phase traces, in phase order. -/
def writeTrace (bookmarks : List BookmarkNode) (w : World) :
    List OpOutcome × List OpOutcome × List OpOutcome × List OpOutcome ×
      List OpOutcome × World :=
  let bidx := buildBrowserIndex w
  let rootFolders := getRootFolders w
  let ch := computeChanges bookmarks bidx
  match deletePhaseTrace ch.toDelete w with
  | (trD, w1) =>
    match updatePhaseTrace ch.toUpdate w1 with
    | (trU, w2) =>
      match movePhaseTrace ch.toMove w2 bidx rootFolders with
      | (trM, w3, bidx3) =>
        match reorderBatchesTrace (groupReorder ch.toReorder) w3 bidx3 rootFolders with
        | (trR, w4, bidx4) =>
          match createPhaseTrace
              (ch.toCreate.mergeSort (fun a b => Nat.ble a.index b.index))
              w4 bidx4 rootFolders with
          | (trC, w5, _) => (trD, trU, trM, trR, trC, w5)

-- ===================================================================
-- Theorems
-- ===================================================================

section MapLemmas

variable {α β : Type} [DecidableEq α]

theorem mapGet_mapSet_self (m : List (α × β)) (k : α) (v : β) :
    mapGet (mapSet m k v) k = some v := by
  induction m with
  | nil => simp [mapSet, mapGet]
  | cons kv rest ih =>
    obtain ⟨k1, v1⟩ := kv
    by_cases h : k1 = k
    · simp [mapSet, mapGet, h]
    · simp [mapSet, mapGet, h, ih]

theorem mapGet_mapSet_ne (m : List (α × β)) (k k1 : α) (v : β) (h : k ≠ k1) :
    mapGet (mapSet m k v) k1 = mapGet m k1 := by
  induction m with
  | nil => simp [mapSet, mapGet, h]
  | cons kv rest ih =>
    obtain ⟨k2, v2⟩ := kv
    by_cases h2 : k2 = k
    · subst h2
      simp [mapSet, mapGet, h]
    · simp only [mapSet, if_neg h2]
      by_cases h3 : k2 = k1 <;> simp [mapGet, h3, ih]

theorem mem_mapSet (m : List (α × β)) (k : α) (v : β) (x : α × β)
    (hx : x ∈ mapSet m k v) : x ∈ m ∨ x = (k, v) := by
  induction m with
  | nil => simpa [mapSet] using hx
  | cons kv rest ih =>
    obtain ⟨k1, v1⟩ := kv
    by_cases h : k1 = k
    · simp only [mapSet, if_pos h] at hx
      rcases List.mem_cons.mp hx with h1 | h1
      · right; exact h1
      · left; exact List.mem_cons_of_mem _ h1
    · simp only [mapSet, if_neg h] at hx
      rcases List.mem_cons.mp hx with h1 | h1
      · left; exact h1 ▸ List.mem_cons_self _ _
      · rcases ih h1 with h2 | h2
        · left; exact List.mem_cons_of_mem _ h2
        · right; exact h2

theorem mem_mapKeys_mapSet (m : List (α × β)) (k a : α) (v : β)
    (ha : a ∈ mapKeys (mapSet m k v)) : a ∈ mapKeys m ∨ a = k := by
  simp only [mapKeys, List.mem_map] at ha
  obtain ⟨x, hx, hax⟩ := ha
  rcases mem_mapSet m k v x hx with h | h
  · left; simp only [mapKeys, List.mem_map]; exact ⟨x, h, hax⟩
  · right; rw [h] at hax; exact hax.symm

theorem nodupKeys_mapSet (m : List (α × β)) (k : α) (v : β)
    (h : (mapKeys m).Nodup) : (mapKeys (mapSet m k v)).Nodup := by
  induction m with
  | nil => simp [mapSet, mapKeys]
  | cons kv rest ih =>
    obtain ⟨k1, v1⟩ := kv
    simp only [mapKeys, List.map_cons, List.nodup_cons] at h
    by_cases hk : k1 = k
    · subst hk
      simp only [mapSet, if_pos trivial, eq_self_iff_true, if_true, mapKeys,
        List.map_cons, List.nodup_cons]
      exact ⟨h.1, h.2⟩
    · simp only [mapSet, if_neg hk, mapKeys, List.map_cons, List.nodup_cons]
      refine ⟨fun hmem => ?_, ih h.2⟩
      rcases mem_mapKeys_mapSet rest k k1 v hmem with h1 | h1
      · exact h.1 h1
      · exact hk h1

theorem mem_of_mapGet (m : List (α × β)) (k : α) (v : β)
    (h : mapGet m k = some v) : (k, v) ∈ m := by
  induction m with
  | nil => simp [mapGet] at h
  | cons kv rest ih =>
    obtain ⟨k1, v1⟩ := kv
    by_cases h1 : k1 = k
    · subst h1
      simp only [mapGet, eq_self_iff_true, if_true, Option.some.injEq] at h
      subst h
      exact List.mem_cons_self _ _
    · simp only [mapGet, if_neg h1] at h
      exact List.mem_cons_of_mem _ (ih h)

theorem mapGet_of_mem (m : List (α × β)) (k : α) (v : β)
    (hmem : (k, v) ∈ m) (hnd : (mapKeys m).Nodup) : mapGet m k = some v := by
  induction m with
  | nil => simp at hmem
  | cons kv rest ih =>
    obtain ⟨k1, v1⟩ := kv
    simp only [mapKeys, List.map_cons, List.nodup_cons] at hnd
    rcases List.mem_cons.mp hmem with h | h
    · injection h with h1 h2
      subst h1
      subst h2
      simp [mapGet]
    · have hne : k1 ≠ k := by
        intro he
        subst he
        exact hnd.1 (List.mem_map.mpr ⟨(k1, v), h, rfl⟩)
      simp only [mapGet, if_neg hne]
      exact ih h hnd.2

theorem mapGet_isSome_iff_mem_keys (m : List (α × β)) (k : α) :
    (mapGet m k).isSome = true ↔ k ∈ mapKeys m := by
  induction m with
  | nil => simp [mapGet, mapKeys]
  | cons kv rest ih =>
    obtain ⟨k1, v1⟩ := kv
    by_cases h : k1 = k
    · subst h
      simp [mapGet, mapKeys]
    · simp [mapGet, mapKeys, h, ih, Ne.symm h]

theorem mem_mergeInto (m l : List (α × β)) (x : α × β)
    (hx : x ∈ mergeInto m l) : x ∈ m ∨ x ∈ l := by
  induction l generalizing m with
  | nil => left; simpa [mergeInto] using hx
  | cons kv rest ih =>
    simp only [mergeInto, List.foldl_cons] at hx
    rcases ih (mapSet m kv.1 kv.2) hx with h | h
    · rcases mem_mapSet m kv.1 kv.2 x h with h1 | h1
      · left; exact h1
      · right; rw [h1]; exact List.mem_cons_self _ _
    · right; exact List.mem_cons_of_mem _ h

theorem nodupKeys_mergeInto (m l : List (α × β))
    (h : (mapKeys m).Nodup) : (mapKeys (mergeInto m l)).Nodup := by
  induction l generalizing m with
  | nil => simpa [mergeInto] using h
  | cons kv rest ih =>
    simp only [mergeInto, List.foldl_cons]
    exact ih (mapSet m kv.1 kv.2) (nodupKeys_mapSet m kv.1 kv.2 h)

end MapLemmas

/-- Strong induction over bookmark-node lists, recursing both into children
and along the list. -/
theorem bnodeList_ind (P : List BookmarkNode → Prop)
    (hnil : P [])
    (hcons : ∀ i t u c rest, (∀ cs, c = some cs → P cs) → P rest →
       P (BookmarkNode.mk i t u c :: rest)) :
    ∀ l, P l := by
  suffices h : ∀ n l, sizeOf l = n → P l by
    exact fun l => h _ l rfl
  intro n
  induction n using Nat.strong_induction_on with
  | _ n ih =>
    intro l hl
    match l with
    | [] => exact hnil
    | .mk i t u c :: rest =>
      apply hcons
      · intro cs hcs
        subst hcs
        apply ih _ _ _ rfl
        subst hl
        simp only [List.cons.sizeOf_spec, BookmarkNode.mk.sizeOf_spec,
          Option.some.sizeOf_spec]
        omega
      · apply ih _ _ _ rfl
        subst hl
        simp only [List.cons.sizeOf_spec]
        omega

/-- Every entry of `flattenGo nodes path m` either comes from the incoming
map `m`, or is a genuine flattened bookmark: its value's `url` equals its
key and its recorded folder path extends `path`. -/
theorem mem_flattenGo (nodes : List BookmarkNode) :
    ∀ (path : List String) (m : List (String × FlatBookmark))
      (x : String × FlatBookmark), x ∈ flattenGo nodes path m →
      x ∈ m ∨ (x.2.url = x.1 ∧ ∃ q, x.2.path = path ++ q) := by
  induction nodes using bnodeList_ind with
  | hnil =>
    intro path m x hx
    left
    simpa [flattenGo] using hx
  | hcons i t u c rest ihc ihr =>
    intro path m x hx
    have hset : ∀ uu, x ∈ mapSet m uu ⟨uu, t, path⟩ →
        x ∈ m ∨ (x.2.url = x.1 ∧ ∃ q, x.2.path = path ++ q) := by
      intro uu hx1
      rcases mem_mapSet m uu ⟨uu, t, path⟩ x hx1 with h | h
      · exact Or.inl h
      · subst h
        exact Or.inr ⟨rfl, [], by simp⟩
    have hchild : ∀ cs, c = some cs → ∀ y : String × FlatBookmark,
        y ∈ flattenGo cs (path ++ [t]) [] →
        y.2.url = y.1 ∧ ∃ q, y.2.path = path ++ q := by
      intro cs hcs y hy
      rcases ihc cs hcs (path ++ [t]) [] y hy with h | h
      · simp at h
      · refine ⟨h.1, ?_⟩
        obtain ⟨q, hq⟩ := h.2
        exact ⟨[t] ++ q, by simpa using hq⟩
    rcases hu : u with _ | uu <;> rcases hc : c with _ | cs <;>
      subst hu <;> subst hc <;> simp only [flattenGo] at hx
    · exact ihr path m x hx
    · rcases ihr path _ x hx with h | h
      · rcases mem_mergeInto _ _ x h with h1 | h1
        · exact Or.inl h1
        · exact Or.inr (hchild cs rfl x h1)
      · exact Or.inr h
    · rcases ihr path _ x hx with h | h
      · exact hset uu h
      · exact Or.inr h
    · rcases ihr path _ x hx with h | h
      · rcases mem_mergeInto _ _ x h with h1 | h1
        · exact hset uu h1
        · exact Or.inr (hchild cs rfl x h1)
      · exact Or.inr h

/-- `flattenGo` preserves key uniqueness of the map being built. -/
theorem nodupKeys_flattenGo (nodes : List BookmarkNode) :
    ∀ (path : List String) (m : List (String × FlatBookmark)),
      (mapKeys m).Nodup → (mapKeys (flattenGo nodes path m)).Nodup := by
  induction nodes using bnodeList_ind with
  | hnil =>
    intro path m hm
    simpa [flattenGo] using hm
  | hcons i t u c rest ihc ihr =>
    intro path m hm
    rcases u with _ | uu <;> rcases c with _ | cs <;>
      simp only [flattenGo] <;>
      apply ihr <;>
      first
        | exact hm
        | exact nodupKeys_mapSet m _ _ hm
        | exact nodupKeys_mergeInto _ _ hm
        | exact nodupKeys_mergeInto _ _ (nodupKeys_mapSet m _ _ hm)

/-- The flattened map of a forest has pairwise distinct URL keys. -/
theorem nodupKeys_flattenBookmarks (nodes : List BookmarkNode) (path : List String) :
    (mapKeys (flattenBookmarks nodes path)).Nodup :=
  nodupKeys_flattenGo nodes path [] (by simp [mapKeys])

/-- Every binding of a flattened forest maps a URL to an entry carrying that
same URL. -/
theorem flattenBookmarks_url_coherent (nodes : List BookmarkNode)
    (path : List String) (u : String) (fb : FlatBookmark)
    (h : mapGet (flattenBookmarks nodes path) u = some fb) : fb.url = u := by
  have hmem := mem_of_mapGet _ _ _ h
  rcases mem_flattenGo nodes path [] (u, fb) hmem with h1 | h1
  · simp at h1
  · exact h1.1

/-- Membership characterization of the `added` list computed by the first
`calculateDiff` loop. -/
theorem mem_diff_added (sMap : List (String × FlatBookmark)) (b : Bool)
    (tMap : List (String × FlatBookmark)) (d : DiffItem) :
    d ∈ (diffAddedModified sMap b tMap).1 ↔
      ∃ u fb, (u, fb) ∈ tMap ∧ mapGet sMap u = none ∧
        d = ⟨DiffType.added, fb.path, fb.title, some fb.url, none⟩ := by
  induction tMap with
  | nil => simp [diffAddedModified]
  | cons kv rest ih =>
    obtain ⟨u1, fb1⟩ := kv
    rcases hg : mapGet sMap u1 with _ | s1
    · simp only [diffAddedModified, hg, List.mem_cons]
      constructor
      · intro h
        rcases h with h | h
        · exact ⟨u1, fb1, Or.inl rfl, hg, h⟩
        · obtain ⟨u, fb, hmem, hg2, hd⟩ := ih.mp h
          exact ⟨u, fb, Or.inr hmem, hg2, hd⟩
      · rintro ⟨u, fb, hmem, hg2, hd⟩
        rcases hmem with h | h
        · injection h with h1 h2
          subst h1
          subst h2
          exact Or.inl hd
        · exact Or.inr (ih.mpr ⟨u, fb, h, hg2, hd⟩)
    · by_cases hcond :
        (s1.title != fb1.title || pathKey b s1.path != pathKey b fb1.path) = true
      · simp only [diffAddedModified, hg, hcond, if_pos rfl, if_true]
        constructor
        · intro h
          obtain ⟨u, fb, hmem, hg2, hd⟩ := ih.mp h
          exact ⟨u, fb, List.mem_cons_of_mem _ hmem, hg2, hd⟩
        · rintro ⟨u, fb, hmem, hg2, hd⟩
          rcases List.mem_cons.mp hmem with h | h
          · injection h with h1 h2
            subst h1
            subst h2
            rw [hg] at hg2
            exact absurd hg2 (by simp)
          · exact ih.mpr ⟨u, fb, h, hg2, hd⟩
      · simp only [diffAddedModified, hg, hcond, if_false, Bool.false_eq_true,
          if_neg hcond]
        constructor
        · intro h
          obtain ⟨u, fb, hmem, hg2, hd⟩ := ih.mp h
          exact ⟨u, fb, List.mem_cons_of_mem _ hmem, hg2, hd⟩
        · rintro ⟨u, fb, hmem, hg2, hd⟩
          rcases List.mem_cons.mp hmem with h | h
          · injection h with h1 h2
            subst h1
            subst h2
            rw [hg] at hg2
            exact absurd hg2 (by simp)
          · exact ih.mpr ⟨u, fb, h, hg2, hd⟩

/-- Membership characterization of the `modified` list computed by the first
`calculateDiff` loop. -/
theorem mem_diff_modified (sMap : List (String × FlatBookmark)) (b : Bool)
    (tMap : List (String × FlatBookmark)) (d : DiffItem) :
    d ∈ (diffAddedModified sMap b tMap).2 ↔
      ∃ u ft fs, (u, ft) ∈ tMap ∧ mapGet sMap u = some fs ∧
        (fs.title != ft.title || pathKey b fs.path != pathKey b ft.path) = true ∧
        d = ⟨DiffType.modified, ft.path, ft.title, some ft.url,
             if fs.title != ft.title then some fs.title else none⟩ := by
  induction tMap with
  | nil => simp [diffAddedModified]
  | cons kv rest ih =>
    obtain ⟨u1, fb1⟩ := kv
    rcases hg : mapGet sMap u1 with _ | s1
    · simp only [diffAddedModified, hg]
      constructor
      · intro h
        obtain ⟨u, ft, fs, hmem, hg2, hc, hd⟩ := ih.mp h
        exact ⟨u, ft, fs, List.mem_cons_of_mem _ hmem, hg2, hc, hd⟩
      · rintro ⟨u, ft, fs, hmem, hg2, hc, hd⟩
        rcases List.mem_cons.mp hmem with h | h
        · injection h with h1 h2
          subst h1
          subst h2
          rw [hg] at hg2
          exact absurd hg2 (by simp)
        · exact ih.mpr ⟨u, ft, fs, h, hg2, hc, hd⟩
    · by_cases hcond :
        (s1.title != fb1.title || pathKey b s1.path != pathKey b fb1.path) = true
      · simp only [diffAddedModified, hg, hcond, if_true, List.mem_cons]
        constructor
        · intro h
          rcases h with h | h
          · exact ⟨u1, fb1, s1, Or.inl rfl, hg, hcond, h⟩
          · obtain ⟨u, ft, fs, hmem, hg2, hc, hd⟩ := ih.mp h
            exact ⟨u, ft, fs, Or.inr hmem, hg2, hc, hd⟩
        · rintro ⟨u, ft, fs, hmem, hg2, hc, hd⟩
          rcases hmem with h | h
          · injection h with h1 h2
            subst h1
            subst h2
            rw [hg] at hg2
            injection hg2 with h3
            subst h3
            exact Or.inl hd
          · exact Or.inr (ih.mpr ⟨u, ft, fs, h, hg2, hc, hd⟩)
      · simp only [diffAddedModified, hg, hcond, if_neg hcond]
        constructor
        · intro h
          obtain ⟨u, ft, fs, hmem, hg2, hc, hd⟩ := ih.mp h
          exact ⟨u, ft, fs, List.mem_cons_of_mem _ hmem, hg2, hc, hd⟩
        · rintro ⟨u, ft, fs, hmem, hg2, hc, hd⟩
          rcases List.mem_cons.mp hmem with h | h
          · injection h with h1 h2
            subst h1
            subst h2
            rw [hg] at hg2
            injection hg2 with h3
            subst h3
            exact absurd hc hcond
          · exact ih.mpr ⟨u, ft, fs, h, hg2, hc, hd⟩

/-- Membership characterization of the `removed` list computed by the second
`calculateDiff` loop. -/
theorem mem_diff_removed (tMap : List (String × FlatBookmark))
    (sMap : List (String × FlatBookmark)) (d : DiffItem) :
    d ∈ diffRemoved tMap sMap ↔
      ∃ u fb, (u, fb) ∈ sMap ∧ mapGet tMap u = none ∧
        d = ⟨DiffType.removed, fb.path, fb.title, some fb.url, none⟩ := by
  induction sMap with
  | nil => simp [diffRemoved]
  | cons kv rest ih =>
    obtain ⟨u1, fb1⟩ := kv
    rcases hg : mapGet tMap u1 with _ | s1
    · simp only [diffRemoved, hg, List.mem_cons]
      constructor
      · intro h
        rcases h with h | h
        · exact ⟨u1, fb1, Or.inl rfl, hg, h⟩
        · obtain ⟨u, fb, hmem, hg2, hd⟩ := ih.mp h
          exact ⟨u, fb, Or.inr hmem, hg2, hd⟩
      · rintro ⟨u, fb, hmem, hg2, hd⟩
        rcases hmem with h | h
        · injection h with h1 h2
          subst h1
          subst h2
          exact Or.inl hd
        · exact Or.inr (ih.mpr ⟨u, fb, h, hg2, hd⟩)
    · simp only [diffRemoved, hg]
      constructor
      · intro h
        obtain ⟨u, fb, hmem, hg2, hd⟩ := ih.mp h
        exact ⟨u, fb, List.mem_cons_of_mem _ hmem, hg2, hd⟩
      · rintro ⟨u, fb, hmem, hg2, hd⟩
        rcases List.mem_cons.mp hmem with h | h
        · injection h with h1 h2
          subst h1
          subst h2
          rw [hg] at hg2
          exact absurd hg2 (by simp)
        · exact ih.mpr ⟨u, fb, h, hg2, hd⟩

/-- A URL is among the `added` URLs of `calculateDiff A B` iff it is present
in the flattened target (`B`) and absent from the flattened source (`A`). -/
theorem urlSet_added_iff (A B : List BookmarkNode) (opts : DiffOptions)
    (u : String) :
    urlSet (calculateDiff A B opts).added u ↔
      (mapGet (flattenBookmarks B []) u).isSome = true ∧
      mapGet (flattenBookmarks A []) u = none := by
  constructor
  · rintro ⟨d, hd, hdu⟩
    obtain ⟨u1, fb, hmem, hg, hdef⟩ :=
      (mem_diff_added (flattenBookmarks A []) opts.skipRootPath
        (flattenBookmarks B []) d).mp hd
    subst hdef
    simp only [Option.some.injEq] at hdu
    have hcoh : fb.url = u1 := by
      rcases mem_flattenGo B [] [] (u1, fb) hmem with h | h
      · simp at h
      · exact h.1
    rw [hdu] at hcoh
    subst hcoh
    refine ⟨?_, hg⟩
    rw [mapGet_of_mem _ _ _ hmem (nodupKeys_flattenBookmarks B [])]
    rfl
  · rintro ⟨hsome, hnone⟩
    rcases ht : mapGet (flattenBookmarks B []) u with _ | fb
    · rw [ht] at hsome
      simp at hsome
    · have hcoh := flattenBookmarks_url_coherent B [] u fb ht
      refine ⟨⟨DiffType.added, fb.path, fb.title, some fb.url, none⟩, ?_, by
        rw [hcoh]⟩
      exact (mem_diff_added _ _ _ _).mpr
        ⟨u, fb, mem_of_mapGet _ _ _ ht, hnone, rfl⟩

/-- A URL is among the `removed` URLs of `calculateDiff A B` iff it is present
in the flattened source (`A`) and absent from the flattened target (`B`). -/
theorem urlSet_removed_iff (A B : List BookmarkNode) (opts : DiffOptions)
    (u : String) :
    urlSet (calculateDiff A B opts).removed u ↔
      (mapGet (flattenBookmarks A []) u).isSome = true ∧
      mapGet (flattenBookmarks B []) u = none := by
  constructor
  · rintro ⟨d, hd, hdu⟩
    obtain ⟨u1, fb, hmem, hg, hdef⟩ :=
      (mem_diff_removed (flattenBookmarks B []) (flattenBookmarks A []) d).mp hd
    subst hdef
    simp only [Option.some.injEq] at hdu
    have hcoh : fb.url = u1 := by
      rcases mem_flattenGo A [] [] (u1, fb) hmem with h | h
      · simp at h
      · exact h.1
    rw [hdu] at hcoh
    subst hcoh
    refine ⟨?_, hg⟩
    rw [mapGet_of_mem _ _ _ hmem (nodupKeys_flattenBookmarks A [])]
    rfl
  · rintro ⟨hsome, hnone⟩
    rcases ht : mapGet (flattenBookmarks A []) u with _ | fb
    · rw [ht] at hsome
      simp at hsome
    · have hcoh := flattenBookmarks_url_coherent A [] u fb ht
      refine ⟨⟨DiffType.removed, fb.path, fb.title, some fb.url, none⟩, ?_, by
        rw [hcoh]⟩
      exact (mem_diff_removed _ _ _).mpr
        ⟨u, fb, mem_of_mapGet _ _ _ ht, hnone, rfl⟩

/-- A URL is among the `modified` URLs of `calculateDiff A B` iff it is
present in both flattened trees with a differing title or differing compared
path string. -/
theorem urlSet_modified_iff (A B : List BookmarkNode) (opts : DiffOptions)
    (u : String) :
    urlSet (calculateDiff A B opts).modified u ↔
      ∃ fs ft, mapGet (flattenBookmarks A []) u = some fs ∧
        mapGet (flattenBookmarks B []) u = some ft ∧
        (fs.title ≠ ft.title ∨
         pathKey opts.skipRootPath fs.path ≠ pathKey opts.skipRootPath ft.path) := by
  constructor
  · rintro ⟨d, hd, hdu⟩
    obtain ⟨u1, ft, fs, hmem, hg, hc, hdef⟩ :=
      (mem_diff_modified (flattenBookmarks A []) opts.skipRootPath
        (flattenBookmarks B []) d).mp hd
    subst hdef
    simp only [Option.some.injEq] at hdu
    have hcoh : ft.url = u1 := by
      rcases mem_flattenGo B [] [] (u1, ft) hmem with h | h
      · simp at h
      · exact h.1
    rw [hdu] at hcoh
    subst hcoh
    refine ⟨fs, ft, hg, mapGet_of_mem _ _ _ hmem (nodupKeys_flattenBookmarks B []), ?_⟩
    simpa [bne_iff_ne] using hc
  · rintro ⟨fs, ft, hs, ht, hcond⟩
    have hcoh := flattenBookmarks_url_coherent B [] u ft ht
    refine ⟨⟨DiffType.modified, ft.path, ft.title, some ft.url,
      if ft.title == fs.title then none else some fs.title⟩, ?_, by rw [hcoh]⟩
    apply (mem_diff_modified _ _ _ _).mpr
    refine ⟨u, ft, fs, mem_of_mapGet _ _ _ ht, hs, by simpa [bne_iff_ne] using hcond, ?_⟩
    have : (if fs.title != ft.title then some fs.title else none) =
        (if ft.title == fs.title then none else some fs.title) := by
      by_cases h : fs.title = ft.title
      · simp [h]
      · simp [h, Ne.symm h]
    rw [this]

/-- If a URL is absent from the target map, no `modified` entry carries it. -/
theorem count_modified_zero (sMap : List (String × FlatBookmark)) (b : Bool)
    (tMap : List (String × FlatBookmark)) (u : String)
    (hcoh : ∀ x : String × FlatBookmark, x ∈ tMap → x.2.url = x.1)
    (hnone : mapGet tMap u = none) :
    ((diffAddedModified sMap b tMap).2.filter
      (fun d => d.url == some u)).length = 0 := by
  induction tMap with
  | nil => simp [diffAddedModified]
  | cons kv rest ih =>
    obtain ⟨u1, fb1⟩ := kv
    have hne : u1 ≠ u := by
      intro h
      subst h
      simp [mapGet] at hnone
    have hrest : mapGet rest u = none := by
      simpa [mapGet, hne] using hnone
    have hcoh1 : fb1.url = u1 := hcoh (u1, fb1) (List.mem_cons_self _ _)
    have hcohr : ∀ x : String × FlatBookmark, x ∈ rest → x.2.url = x.1 :=
      fun x hx => hcoh x (List.mem_cons_of_mem _ hx)
    have hfilter : ((some fb1.url : Option String) == some u) = false := by
      simp [hcoh1, hne]
    rcases hg : mapGet sMap u1 with _ | s1
    · simp only [diffAddedModified, hg]
      exact ih hcohr hrest
    · by_cases hcond :
        (s1.title != fb1.title || pathKey b s1.path != pathKey b fb1.path) = true
      · simp only [diffAddedModified, hg, hcond, if_true, List.filter_cons,
          hfilter]
        exact ih hcohr hrest
      · simp only [diffAddedModified, hg, if_neg hcond]
        exact ih hcohr hrest

/-- If a URL is present in both maps with a difference, exactly one
`modified` entry carries it. -/
theorem count_modified_one (sMap : List (String × FlatBookmark)) (b : Bool)
    (tMap : List (String × FlatBookmark)) (u : String) (ft fs : FlatBookmark)
    (hnd : (mapKeys tMap).Nodup)
    (hcoh : ∀ x : String × FlatBookmark, x ∈ tMap → x.2.url = x.1)
    (ht : mapGet tMap u = some ft) (hs : mapGet sMap u = some fs)
    (hcond : (fs.title != ft.title || pathKey b fs.path != pathKey b ft.path)
      = true) :
    ((diffAddedModified sMap b tMap).2.filter
      (fun d => d.url == some u)).length = 1 := by
  induction tMap with
  | nil => simp [mapGet] at ht
  | cons kv rest ih =>
    obtain ⟨u1, fb1⟩ := kv
    have hcoh1 : fb1.url = u1 := hcoh (u1, fb1) (List.mem_cons_self _ _)
    have hcohr : ∀ x : String × FlatBookmark, x ∈ rest → x.2.url = x.1 :=
      fun x hx => hcoh x (List.mem_cons_of_mem _ hx)
    simp only [mapKeys, List.map_cons, List.nodup_cons] at hnd
    by_cases heq : u1 = u
    · subst heq
      simp only [mapGet, if_pos trivial, eq_self_iff_true, if_true,
        Option.some.injEq] at ht
      subst ht
      have hrest : mapGet rest u1 = none := by
        rcases hr : mapGet rest u1 with _ | v
        · rfl
        · exact absurd ((mapGet_isSome_iff_mem_keys rest u1).mp (by simp [hr]))
            hnd.1
      simp only [diffAddedModified, hs, hcond, if_true, List.filter_cons]
      have hfilter : ((some fb1.url : Option String) == some u1) = true := by
        simp [hcoh1]
      simp only [hfilter, if_true, List.length_cons]
      rw [count_modified_zero sMap b rest u1 hcohr hrest]
    · have htr : mapGet rest u = some ft := by
        simpa [mapGet, heq] using ht
      have hfilter : ((some fb1.url : Option String) == some u) = false := by
        simp [hcoh1, heq]
      rcases hg : mapGet sMap u1 with _ | s1
      · simp only [diffAddedModified, hg]
        exact ih hnd.2 hcohr htr
      · by_cases hcond1 :
          (s1.title != fb1.title || pathKey b s1.path != pathKey b fb1.path)
            = true
        · simp only [diffAddedModified, hg, hcond1, if_true, List.filter_cons,
            hfilter]
          exact ih hnd.2 hcohr htr
        · simp only [diffAddedModified, hg, if_neg hcond1]
          exact ih hnd.2 hcohr htr

-- ===================================================================
-- Claim theorems for the Tree Differ
-- ===================================================================

/-- C3: for every pair of trees and every call to `calculateDiff` with the
`skipRootPath` option set, the first segment of each bookmark's folder path
is excluded from the path-equality comparison that decides whether the
bookmark is reported as modified: a URL is reported modified exactly when it
is present in both flattened trees and either the titles differ or the
joined folder paths with the first segment dropped differ. -/
theorem c3_skip_root_path (A B : List BookmarkNode) (u : String) :
    (∃ d ∈ (calculateDiff A B ⟨true⟩).modified, d.url = some u) ↔
      ∃ fs ft, mapGet (flattenBookmarks A []) u = some fs ∧
        mapGet (flattenBookmarks B []) u = some ft ∧
        (fs.title ≠ ft.title ∨
         String.intercalate "/" (fs.path.drop 1) ≠
           String.intercalate "/" (ft.path.drop 1)) := by
  have h := urlSet_modified_iff A B ⟨true⟩ u
  simpa [urlSet, pathKey] using h

/-- C4 counterexample: flattening a node with an empty title and children
records the empty title as a path segment for its descendants — the
bookmark directly below such a node gets folder path `[""]`, not `[]`. -/
theorem c4_counterexample :
    mapGet (flattenBookmarks
      [BookmarkNode.mk "f" "" none
        (some [BookmarkNode.mk "b" "B" (some "u") none])] []) "u" =
      some ⟨"u", "B", [""]⟩ ∧ ([""] : List String) ≠ [] := by
  constructor
  · simp [flattenBookmarks, flattenGo, mergeInto, mapSet, mapGet]
  · simp

/-- C4 amended: in the Differ's flattening traversal a node with an
empty-string title and children is NOT transparent — its empty title is
appended as a path segment, so every bookmark found under such a top-level
node has a recorded folder path beginning with the empty segment. -/
theorem c4_empty_title_contributes_segment (i u : String)
    (cs : List BookmarkNode) (fb : FlatBookmark)
    (h : mapGet (flattenBookmarks [BookmarkNode.mk i "" none (some cs)] []) u
      = some fb) : ∃ q, fb.path = "" :: q := by
  simp only [flattenBookmarks, flattenGo] at h
  have hmem := mem_of_mapGet _ _ _ h
  rcases mem_mergeInto _ _ _ hmem with h1 | h1
  · simp at h1
  · rcases mem_flattenGo cs ([] ++ [""]) [] (u, fb) h1 with h2 | h2
    · simp at h2
    · obtain ⟨q, hq⟩ := h2.2
      exact ⟨q, by simpa using hq⟩

/-- Witness for the amended C4 theorem at a concrete input. -/
theorem c4_empty_title_contributes_segment_witness :
    mapGet (flattenBookmarks
      [BookmarkNode.mk "f" "" none
        (some [BookmarkNode.mk "b" "B" (some "u2") none])] []) "u2" =
      some ⟨"u2", "B", [""]⟩ ∧
    ∃ q, (⟨"u2", "B", [""]⟩ : FlatBookmark).path = "" :: q := by
  have h1 : mapGet (flattenBookmarks
      [BookmarkNode.mk "f" "" none
        (some [BookmarkNode.mk "b" "B" (some "u2") none])] []) "u2" =
      some ⟨"u2", "B", [""]⟩ := by
    simp [flattenBookmarks, flattenGo, mergeInto, mapSet, mapGet]
  exact ⟨h1, c4_empty_title_contributes_segment "f" "u2" _ _ h1⟩

/-- C5 counterexample: with `A` holding URL `u` titled `x` and `B` holding
the same URL titled `y`, the `modified` entry of `calculateDiff A B` (new
title `y`, old title `x`) differs from the `modified` entry of
`calculateDiff B A` (new title `x`, old title `y`): the two modified sets
are not identical. -/
theorem c5_counterexample :
    ∃ d ∈ (calculateDiff [BookmarkNode.mk "1" "x" (some "u") none]
        [BookmarkNode.mk "1" "y" (some "u") none] ⟨false⟩).modified,
      d ∉ (calculateDiff [BookmarkNode.mk "1" "y" (some "u") none]
        [BookmarkNode.mk "1" "x" (some "u") none] ⟨false⟩).modified := by
  refine ⟨⟨DiffType.modified, [], "y", some "u", some "x"⟩, ?_, ?_⟩ <;>
    simp [calculateDiff, flattenBookmarks, flattenGo, mapSet, mapGet,
      diffAddedModified, diffRemoved, pathKey, mergeInto]

/-- C5 amended: for every pair of trees, the URL set of
`calculateDiff(A,B).added` equals the URL set of `calculateDiff(B,A).removed`
and vice versa, and the URL sets (not the item sets, whose title/oldTitle
fields are direction-dependent) of the two `modified` lists coincide. -/
theorem c5_diff_symmetry (A B : List BookmarkNode) (opts : DiffOptions) :
    (∀ u, urlSet (calculateDiff A B opts).added u ↔
       urlSet (calculateDiff B A opts).removed u) ∧
    (∀ u, urlSet (calculateDiff A B opts).removed u ↔
       urlSet (calculateDiff B A opts).added u) ∧
    (∀ u, urlSet (calculateDiff A B opts).modified u ↔
       urlSet (calculateDiff B A opts).modified u) := by
  refine ⟨fun u => ?_, fun u => ?_, fun u => ?_⟩
  · rw [urlSet_added_iff, urlSet_removed_iff]
  · rw [urlSet_removed_iff, urlSet_added_iff]
  · rw [urlSet_modified_iff, urlSet_modified_iff]
    constructor
    · rintro ⟨fs, ft, hs, ht, hc⟩
      exact ⟨ft, fs, ht, hs, hc.imp Ne.symm Ne.symm⟩
    · rintro ⟨fs, ft, hs, ht, hc⟩
      exact ⟨ft, fs, ht, hs, hc.imp Ne.symm Ne.symm⟩

/-- C9: a URL present in both flattened trees whose title or joined folder
path differs is reported `modified` exactly once, and the `oldTitle` field
of every `modified` entry for that URL is populated iff the title differed. -/
theorem c9_modified_exactly_once (A B : List BookmarkNode) (u : String)
    (fs ft : FlatBookmark)
    (hs : mapGet (flattenBookmarks A []) u = some fs)
    (ht : mapGet (flattenBookmarks B []) u = some ft)
    (hdiff : fs.title ≠ ft.title ∨
      String.intercalate "/" fs.path ≠ String.intercalate "/" ft.path) :
    ((calculateDiff A B ⟨false⟩).modified.filter
       (fun d => d.url == some u)).length = 1 ∧
    ∀ d ∈ (calculateDiff A B ⟨false⟩).modified, d.url = some u →
      (d.oldTitle.isSome ↔ fs.title ≠ ft.title) := by
  have hcond : (fs.title != ft.title ||
      pathKey false fs.path != pathKey false ft.path) = true := by
    simpa [pathKey, bne_iff_ne] using hdiff
  have hcoh : ∀ x : String × FlatBookmark, x ∈ flattenBookmarks B [] →
      x.2.url = x.1 := by
    intro x hx
    rcases mem_flattenGo B [] [] x hx with h | h
    · simp at h
    · exact h.1
  constructor
  · simp only [calculateDiff]
    exact count_modified_one _ false _ u ft fs
      (nodupKeys_flattenBookmarks B []) hcoh ht hs hcond
  · intro d hd hdu
    obtain ⟨u1, ft1, fs1, hmem, hg, hc, hdef⟩ :=
      (mem_diff_modified (flattenBookmarks A []) false
        (flattenBookmarks B []) d).mp hd
    subst hdef
    simp only [Option.some.injEq] at hdu
    have hcoh1 : ft1.url = u1 := hcoh (u1, ft1) hmem
    rw [hdu] at hcoh1
    subst hcoh1
    have hft : ft1 = ft := by
      have := mapGet_of_mem _ _ _ hmem (nodupKeys_flattenBookmarks B [])
      rw [this] at ht
      injection ht
    rw [hft]
    rw [hg] at hs
    injection hs with hfs
    rw [hfs]
    by_cases htitle : fs.title = ft.title
    · simp [htitle]
    · simp [htitle, bne_iff_ne]

/-- Witness for C9 at a concrete input: same URL, title changed from `x`
to `y`. -/
theorem c9_modified_exactly_once_witness :
    ((calculateDiff [BookmarkNode.mk "1" "x" (some "u") none]
        [BookmarkNode.mk "1" "y" (some "u") none] ⟨false⟩).modified.filter
       (fun d => d.url == some "u")).length = 1 := by
  have hs : mapGet (flattenBookmarks
      [BookmarkNode.mk "1" "x" (some "u") none] []) "u" =
      some ⟨"u", "x", []⟩ := by
    simp [flattenBookmarks, flattenGo, mapSet, mapGet]
  have ht : mapGet (flattenBookmarks
      [BookmarkNode.mk "1" "y" (some "u") none] []) "u" =
      some ⟨"u", "y", []⟩ := by
    simp [flattenBookmarks, flattenGo, mapSet, mapGet]
  exact (c9_modified_exactly_once _ _ "u" _ _ hs ht (Or.inl (by decide))).1

-- ===================================================================
-- Claim theorems for the Sync Lock and Sync Engine
-- ===================================================================

/-- Invariant of the interleaved lock system: a caller only ever returns its
own lock id (lock ids are chosen before the loop and never change). -/
theorem lockSys_own_id (idA idB opA opB : String) (s0 s : LockSys)
    (h0A : ∀ r, s0.pcA = .done (some r) → r = idA)
    (h0B : ∀ r, s0.pcB = .done (some r) → r = idB)
    (hreach : Relation.ReflTransGen (LockStep idA idB opA opB) s0 s) :
    (∀ r, s.pcA = .done (some r) → r = idA) ∧
    (∀ r, s.pcB = .done (some r) → r = idB) := by
  induction hreach with
  | refl => exact ⟨h0A, h0B⟩
  | tail hsteps hstep ih =>
    obtain ⟨ihA, ihB⟩ := ih
    cases hstep with
    | tick d => exact ⟨ihA, ihB⟩
    | writeA h hfree => exact ⟨fun r hr => by simp at hr, ihB⟩
    | giveUpA h => exact ⟨fun r hr => by simp at hr, ihB⟩
    | verifyOkA h hv =>
      refine ⟨fun r hr => ?_, ihB⟩
      simp only [LockPc.done.injEq, Option.some.injEq] at hr
      exact hr.symm
    | verifyFailA h hv => exact ⟨fun r hr => by simp at hr, ihB⟩
    | writeB h hfree => exact ⟨ihA, fun r hr => by simp at hr⟩
    | giveUpB h => exact ⟨ihA, fun r hr => by simp at hr⟩
    | verifyOkB h hv =>
      refine ⟨ihA, fun r hr => ?_⟩
      simp only [LockPc.done.injEq, Option.some.injEq] at hr
      exact hr.symm
    | verifyFailB h hv => exact ⟨ihA, fun r hr => by simp at hr⟩

/-- C2: in every state reachable by interleaving two `acquireLock` calls
with distinct lock ids over the shared slot, the two calls are never both
observed as confirmed holders at the same time: at most one of them has
returned a non-null lock id whose token is the holder currently stored in
the single slot.  (Both calls *can* return non-null ids at different
moments — the slot holds one token at a time, so at most one of the
returned ids is the confirmed holder in any state.) -/
theorem c2_lock_mutual_exclusion (idA idB opA opB : String)
    (slot0 : Option LockInfo) (t0 : Nat) (s : LockSys)
    (hne : idA ≠ idB)
    (hreach : Relation.ReflTransGen (LockStep idA idB opA opB)
      ⟨slot0, t0, .idle, .idle⟩ s) :
    ¬(returnedHolder s.slot s.pcA ∧ returnedHolder s.slot s.pcB) := by
  rintro ⟨⟨rA, hA, hsA⟩, rB, hB, hsB⟩
  obtain ⟨hinvA, hinvB⟩ :=
    lockSys_own_id idA idB opA opB _ s (fun r hr => by simp at hr)
      (fun r hr => by simp at hr) hreach
  rw [hinvA rA hA] at hsA
  rw [hinvB rB hB] at hsB
  rw [hsA] at hsB
  injection hsB with hsB2
  exact hne hsB2

/-- Witness for C2: a concrete two-step execution in which caller A writes
and confirms; the mutual-exclusion conclusion holds in the reached state. -/
theorem c2_lock_mutual_exclusion_witness :
    ("idA0" : String) ≠ "idB0" ∧
    ¬(returnedHolder (some ⟨"idA0", 0, "push"⟩) (LockPc.done (some "idA0")) ∧
      returnedHolder (some ⟨"idA0", 0, "push"⟩) LockPc.idle) := by
  refine ⟨by decide, ?_⟩
  have h1 : LockStep "idA0" "idB0" "push" "pull"
      ⟨none, 0, .idle, .idle⟩ ⟨some ⟨"idA0", 0, "push"⟩, 0, .wrote, .idle⟩ :=
    LockStep.writeA _ rfl rfl
  have h2 : LockStep "idA0" "idB0" "push" "pull"
      ⟨some ⟨"idA0", 0, "push"⟩, 0, .wrote, .idle⟩
      ⟨some ⟨"idA0", 0, "push"⟩, 0, .done (some "idA0"), .idle⟩ :=
    LockStep.verifyOkA _ rfl rfl
  exact c2_lock_mutual_exclusion "idA0" "idB0" "push" "pull" none 0
    ⟨some ⟨"idA0", 0, "push"⟩, 0, .done (some "idA0"), .idle⟩ (by decide)
    (Relation.ReflTransGen.tail (Relation.ReflTransGen.tail
      Relation.ReflTransGen.refl h1) h2)

/-- C8: a stored lock record older than the 30000 ms staleness threshold
does not block acquisition: an uninterfered `acquireLock` run observes the
record as expired on its first poll and returns a non-null lock id, with no
prior `forceReleaseLock` (the model contains no force-release action). -/
theorem c8_lock_auto_expiry (l : LockInfo) (lockId : String) (now : Nat)
    (hexp : LOCK_TIMEOUT_MS < now - l.acquiredAt) :
    acquireLockSolo (some l) lockId now 10000 now = some lockId := by
  rw [acquireLockSolo]
  simp [isLockExpired, hexp]

/-- Witness for C8: a lock acquired at time 0 and never released does not
block an acquisition attempted 31 seconds later. -/
theorem c8_lock_auto_expiry_witness :
    LOCK_TIMEOUT_MS < 31000 - (0 : Nat) ∧
    acquireLockSolo (some ⟨"ctxX", 0, "push"⟩) "ctxY" 31000 10000 31000 =
      some "ctxY" :=
  ⟨by decide, c8_lock_auto_expiry ⟨"ctxX", 0, "push"⟩ "ctxY" 31000 (by decide)⟩

/-- The counting loop of `countBookmarks` adds the number of URL-bearing
nodes to its accumulator. -/
theorem countTraverse_eq (l : List BookmarkNode) :
    ∀ acc, countTraverse l acc = acc + (urlOccurrences l).length := by
  induction l using bnodeList_ind with
  | hnil => intro acc; simp [countTraverse, urlOccurrences]
  | hcons i t u c rest ihc ihr =>
    intro acc
    rcases u with _ | uu <;> rcases c with _ | cs
    · simp only [countTraverse, urlOccurrences]
      rw [ihr]
      simp
    · simp only [countTraverse, urlOccurrences]
      rw [ihr, ihc cs rfl]
      simp
      omega
    · simp only [countTraverse, urlOccurrences]
      rw [ihr]
      simp
      omega
    · simp only [countTraverse, urlOccurrences]
      rw [ihr, ihc cs rfl]
      simp
      omega

/-- C10: a successful `SyncEngine.push` reports as its change count the
total number of URL-bearing nodes of the uploaded local tree — independent
of any remote state, hence also when nothing actually differed. -/
theorem c10_push_reports_total_count (localBookmarks : List BookmarkNode)
    (lockOk writeOk : Bool) (n : Nat)
    (h : syncEnginePush localBookmarks lockOk writeOk = .ok n) :
    n = (urlOccurrences localBookmarks).length := by
  rcases lockOk with _ | _
  · simp [syncEnginePush] at h
  · rcases writeOk with _ | _
    · simp [syncEnginePush] at h
    · simp only [syncEnginePush, if_true] at h
      injection h with h2
      rw [← h2, countBookmarks, countTraverse_eq]
      omega

/-- Witness for C10: pushing a tree of two bookmarks reports 2 changes, even
though the tree differs in nothing from itself (`hasChanges` of the
self-diff is false). -/
theorem c10_push_reports_total_count_witness :
    syncEnginePush
      [BookmarkNode.mk "r" "Bar" none
        (some [BookmarkNode.mk "1" "A" (some "u1") none,
               BookmarkNode.mk "2" "B" (some "u2") none])] true true =
      SyncResult.ok 2 ∧
    (calculateDiff
      [BookmarkNode.mk "r" "Bar" none
        (some [BookmarkNode.mk "1" "A" (some "u1") none,
               BookmarkNode.mk "2" "B" (some "u2") none])]
      [BookmarkNode.mk "r" "Bar" none
        (some [BookmarkNode.mk "1" "A" (some "u1") none,
               BookmarkNode.mk "2" "B" (some "u2") none])]
      ⟨false⟩).hasChanges = false ∧
    2 = (urlOccurrences
      [BookmarkNode.mk "r" "Bar" none
        (some [BookmarkNode.mk "1" "A" (some "u1") none,
               BookmarkNode.mk "2" "B" (some "u2") none])]).length := by
  have hpush : syncEnginePush
      [BookmarkNode.mk "r" "Bar" none
        (some [BookmarkNode.mk "1" "A" (some "u1") none,
               BookmarkNode.mk "2" "B" (some "u2") none])] true true =
      SyncResult.ok 2 := by
    simp [syncEnginePush, countBookmarks, countTraverse]
  refine ⟨hpush, ?_, c10_push_reports_total_count _ true true 2 hpush⟩
  simp [calculateDiff, flattenBookmarks, flattenGo, mergeInto, mapSet, mapGet,
    diffAddedModified, diffRemoved, pathKey]

-- ===================================================================
-- Agreement between the counting writer and its trace view (claim C7)
-- ===================================================================

theorem countApplied_append (t1 t2 : List OpOutcome) :
    countApplied (t1 ++ t2) = countApplied t1 + countApplied t2 := by
  simp [countApplied, List.filter_append]

theorem collectFailures_append (t1 t2 : List OpOutcome) :
    collectFailures (t1 ++ t2) = collectFailures t1 ++ collectFailures t2 := by
  simp [collectFailures, List.filterMap_append]

theorem deletePhase_trace (items : List String) :
    ∀ w changes errors,
      deletePhase items w changes errors =
        ((deletePhaseTrace items w).2,
         changes + countApplied (deletePhaseTrace items w).1,
         errors ++ collectFailures (deletePhaseTrace items w).1) := by
  induction items with
  | nil =>
    intro w c e
    simp [deletePhase, deletePhaseTrace, countApplied, collectFailures]
  | cons id rest ih =>
    intro w c e
    rcases h : removeId w.tree id with _ | t2 <;>
      simp only [deletePhase, deletePhaseTrace, h] <;>
      rw [ih] <;>
      rcases h2 : deletePhaseTrace rest _ with ⟨tr, w2⟩ <;>
      simp [countApplied, collectFailures, h2] <;>
      omega

theorem updatePhase_trace (items : List UpdateItem) :
    ∀ w changes errors,
      updatePhase items w changes errors =
        ((updatePhaseTrace items w).2,
         changes + countApplied (updatePhaseTrace items w).1,
         errors ++ collectFailures (updatePhaseTrace items w).1) := by
  induction items with
  | nil =>
    intro w c e
    simp [updatePhase, updatePhaseTrace, countApplied, collectFailures]
  | cons item rest ih =>
    intro w c e
    rcases h : updateTitleById w.tree item.browserId item.node.title with _ | t2 <;>
      simp only [updatePhase, updatePhaseTrace, h] <;>
      rw [ih] <;>
      rcases h2 : updatePhaseTrace rest _ with ⟨tr, w2⟩ <;>
      simp [countApplied, collectFailures, h2] <;>
      omega

theorem movePhase_trace (items : List MoveItem) :
    ∀ w bidx rootFolders changes errors,
      movePhase items w bidx rootFolders changes errors =
        ((movePhaseTrace items w bidx rootFolders).2.1,
         (movePhaseTrace items w bidx rootFolders).2.2,
         changes + countApplied (movePhaseTrace items w bidx rootFolders).1,
         errors ++ collectFailures (movePhaseTrace items w bidx rootFolders).1) := by
  induction items with
  | nil =>
    intro w bidx rootFolders c e
    simp [movePhase, movePhaseTrace, countApplied, collectFailures]
  | cons item rest ih =>
    intro w bidx rootFolders c e
    rcases h : ensureParentFolder item.newParentPath w bidx rootFolders with
      ⟨res, w1, bidx1⟩
    rcases res with pid | _ | _
    · rcases h2 : moveToParent w1.tree item.browserId pid item.newIndex with _ | t2 <;>
        simp only [movePhase, movePhaseTrace, h, h2] <;>
        rw [ih] <;>
        rcases h3 : movePhaseTrace rest _ _ rootFolders with ⟨tr, w2, bidx2⟩ <;>
        simp [countApplied, collectFailures, h3] <;>
        omega
    · simp only [movePhase, movePhaseTrace, h]
      rw [ih]
      rcases h3 : movePhaseTrace rest w1 bidx1 rootFolders with ⟨tr, w2, bidx2⟩
      simp [countApplied, collectFailures, h3]
    · simp only [movePhase, movePhaseTrace, h]
      rw [ih]
      rcases h3 : movePhaseTrace rest w1 bidx1 rootFolders with ⟨tr, w2, bidx2⟩
      simp [countApplied, collectFailures, h3]

theorem reorderLoop_trace (parentPath : List String) (items : List ReorderItem) :
    ∀ currentChildren w changes errors,
      reorderLoop parentPath items currentChildren w changes errors =
        ((reorderLoopTrace parentPath items currentChildren w).2,
         changes + countApplied (reorderLoopTrace parentPath items currentChildren w).1,
         errors ++ collectFailures (reorderLoopTrace parentPath items currentChildren w).1) := by
  induction items with
  | nil =>
    intro cc w c e
    simp [reorderLoop, reorderLoopTrace, countApplied, collectFailures]
  | cons item rest ih =>
    intro cc w c e
    rcases h : idIndexOf cc item.browserId with _ | currentIndex
    · simp only [reorderLoop, reorderLoopTrace, h]
      rw [ih]
      rcases h3 : reorderLoopTrace parentPath rest cc w with ⟨tr, w2⟩
      simp [countApplied, collectFailures, h3]
    · by_cases heq : currentIndex = item.newIndex
      · simp only [reorderLoop, reorderLoopTrace, h, heq, if_pos trivial,
          eq_self_iff_true, if_true]
        rw [ih]
        rcases h3 : reorderLoopTrace parentPath rest cc w with ⟨tr, w2⟩
        simp [countApplied, collectFailures, h3]
      · rcases h2 : moveWithinParent w.tree item.browserId item.newIndex with _ | t2
        · simp only [reorderLoop, reorderLoopTrace, h, if_neg heq, h2]
          simp [countApplied, collectFailures]
        · rcases h4 : extractTop cc item.browserId with _ | ⟨cnode, restChildren⟩ <;>
            simp only [reorderLoop, reorderLoopTrace, h, if_neg heq, h2, h4] <;>
            rw [ih] <;>
            rcases h3 : reorderLoopTrace parentPath rest _ _ with ⟨tr, w2⟩ <;>
            simp [countApplied, collectFailures, h3] <;>
            omega

theorem reorderBatches_trace (batches : List (List String × List ReorderItem)) :
    ∀ w bidx rootFolders changes errors,
      reorderBatches batches w bidx rootFolders changes errors =
        ((reorderBatchesTrace batches w bidx rootFolders).2.1,
         (reorderBatchesTrace batches w bidx rootFolders).2.2,
         changes + countApplied (reorderBatchesTrace batches w bidx rootFolders).1,
         errors ++ collectFailures (reorderBatchesTrace batches w bidx rootFolders).1) := by
  induction batches with
  | nil =>
    intro w bidx rootFolders c e
    simp [reorderBatches, reorderBatchesTrace, countApplied, collectFailures]
  | cons batch rest ih =>
    intro w bidx rootFolders c e
    obtain ⟨parentPath, items⟩ := batch
    rcases h : ensureParentFolder parentPath w bidx rootFolders with ⟨res, w1, bidx1⟩
    rcases res with pid | _ | _
    · rcases h2 : findId w1.tree pid with _ | parent
      · simp only [reorderBatches, reorderBatchesTrace, h, h2]
        rw [ih]
        rcases h3 : reorderBatchesTrace rest w1 bidx1 rootFolders with ⟨tr, w2, bidx2⟩
        simp [countApplied, collectFailures, h3]
      · rcases h4 : parent.children with _ | currentChildren
        · simp only [reorderBatches, reorderBatchesTrace, h, h2, h4]
          rw [ih]
        · simp only [reorderBatches, reorderBatchesTrace, h, h2, h4]
          rw [reorderLoop_trace]
          rcases h5 : reorderLoopTrace parentPath
            (items.mergeSort (fun a b => Nat.ble a.newIndex b.newIndex))
            currentChildren w1 with ⟨tr1, w2⟩
          rw [ih]
          rcases h6 : reorderBatchesTrace rest w2 bidx1 rootFolders with ⟨tr2, w3, bidx3⟩
          simp [countApplied_append, collectFailures_append, h5, h6]
          omega
    · simp only [reorderBatches, reorderBatchesTrace, h]
      rw [ih]
    · simp only [reorderBatches, reorderBatchesTrace, h]
      rw [ih]
      rcases h3 : reorderBatchesTrace rest w1 bidx1 rootFolders with ⟨tr, w2, bidx2⟩
      simp [countApplied, collectFailures, h3]

theorem createPhase_trace (items : List CreateItem) :
    ∀ w bidx rootFolders changes errors,
      createPhase items w bidx rootFolders changes errors =
        ((createPhaseTrace items w bidx rootFolders).2.1,
         (createPhaseTrace items w bidx rootFolders).2.2,
         changes + countApplied (createPhaseTrace items w bidx rootFolders).1,
         errors ++ collectFailures (createPhaseTrace items w bidx rootFolders).1) := by
  induction items with
  | nil =>
    intro w bidx rootFolders c e
    simp [createPhase, createPhaseTrace, countApplied, collectFailures]
  | cons item rest ih =>
    intro w bidx rootFolders c e
    rcases h : ensureParentFolder item.parentPath w bidx rootFolders with ⟨res, w1, bidx1⟩
    rcases res with pid | _ | _
    · rcases h2 : createNode w1 pid item.node.title item.node.url (some item.index)
        with _ | ⟨newId, w2⟩ <;>
        simp only [createPhase, createPhaseTrace, h, h2] <;>
        rw [ih] <;>
        rcases h3 : createPhaseTrace rest _ _ rootFolders with ⟨tr, w3, bidx3⟩ <;>
        simp [countApplied, collectFailures, h3] <;>
        omega
    · simp only [createPhase, createPhaseTrace, h]
      rw [ih]
      rcases h3 : createPhaseTrace rest w1 bidx1 rootFolders with ⟨tr, w3, bidx3⟩
      simp [countApplied, collectFailures, h3]
    · simp only [createPhase, createPhaseTrace, h]
      rw [ih]
      rcases h3 : createPhaseTrace rest w1 bidx1 rootFolders with ⟨tr, w3, bidx3⟩
      simp [countApplied, collectFailures, h3]

theorem deletePhaseTrace_length (items : List String) :
    ∀ w, (deletePhaseTrace items w).1.length = items.length := by
  induction items with
  | nil => intro w; simp [deletePhaseTrace]
  | cons id rest ih =>
    intro w
    rcases h : removeId w.tree id with _ | t2
    · have h3 := ih w
      simp only [deletePhaseTrace, h]
      rcases h2 : deletePhaseTrace rest w with ⟨tr, w2⟩
      rw [h2] at h3
      simp [h3]
    · have h3 := ih { w with tree := t2 }
      simp only [deletePhaseTrace, h]
      rcases h2 : deletePhaseTrace rest { w with tree := t2 } with ⟨tr, w2⟩
      rw [h2] at h3
      simp [h3]

theorem updatePhaseTrace_length (items : List UpdateItem) :
    ∀ w, (updatePhaseTrace items w).1.length = items.length := by
  induction items with
  | nil => intro w; simp [updatePhaseTrace]
  | cons item rest ih =>
    intro w
    rcases h : updateTitleById w.tree item.browserId item.node.title with _ | t2
    · have h3 := ih w
      simp only [updatePhaseTrace, h]
      rcases h2 : updatePhaseTrace rest w with ⟨tr, w2⟩
      rw [h2] at h3
      simp [h3]
    · have h3 := ih { w with tree := t2 }
      simp only [updatePhaseTrace, h]
      rcases h2 : updatePhaseTrace rest { w with tree := t2 } with ⟨tr, w2⟩
      rw [h2] at h3
      simp [h3]

theorem movePhaseTrace_length (items : List MoveItem) :
    ∀ w bidx rootFolders,
      (movePhaseTrace items w bidx rootFolders).1.length = items.length := by
  induction items with
  | nil => intro w bidx rootFolders; simp [movePhaseTrace]
  | cons item rest ih =>
    intro w bidx rootFolders
    rcases h : ensureParentFolder item.newParentPath w bidx rootFolders with
      ⟨res, w1, bidx1⟩
    rcases res with pid | _ | _
    · rcases h2 : moveToParent w1.tree item.browserId pid item.newIndex with _ | t2
      · have h3 := ih w1 bidx1 rootFolders
        simp only [movePhaseTrace, h, h2]
        rcases h4 : movePhaseTrace rest w1 bidx1 rootFolders with ⟨tr, w2, bidx2⟩
        rw [h4] at h3
        simp [h3]
      · have h3 := ih { w1 with tree := t2 } bidx1 rootFolders
        simp only [movePhaseTrace, h, h2]
        rcases h4 : movePhaseTrace rest { w1 with tree := t2 } bidx1 rootFolders
          with ⟨tr, w2, bidx2⟩
        rw [h4] at h3
        simp [h3]
    · have h3 := ih w1 bidx1 rootFolders
      simp only [movePhaseTrace, h]
      rcases h4 : movePhaseTrace rest w1 bidx1 rootFolders with ⟨tr, w2, bidx2⟩
      rw [h4] at h3
      simp [h3]
    · have h3 := ih w1 bidx1 rootFolders
      simp only [movePhaseTrace, h]
      rcases h4 : movePhaseTrace rest w1 bidx1 rootFolders with ⟨tr, w2, bidx2⟩
      rw [h4] at h3
      simp [h3]

theorem createPhaseTrace_length (items : List CreateItem) :
    ∀ w bidx rootFolders,
      (createPhaseTrace items w bidx rootFolders).1.length = items.length := by
  induction items with
  | nil => intro w bidx rootFolders; simp [createPhaseTrace]
  | cons item rest ih =>
    intro w bidx rootFolders
    rcases h : ensureParentFolder item.parentPath w bidx rootFolders with
      ⟨res, w1, bidx1⟩
    rcases res with pid | _ | _
    · rcases h2 : createNode w1 pid item.node.title item.node.url (some item.index)
        with _ | ⟨newId, w2⟩
      · have h3 := ih w1 bidx1 rootFolders
        simp only [createPhaseTrace, h, h2]
        rcases h4 : createPhaseTrace rest w1 bidx1 rootFolders with ⟨tr, w3, bidx3⟩
        rw [h4] at h3
        simp [h3]
      · have h3 := ih w2 bidx1 rootFolders
        simp only [createPhaseTrace, h, h2]
        rcases h4 : createPhaseTrace rest w2 bidx1 rootFolders with ⟨tr, w3, bidx3⟩
        rw [h4] at h3
        simp [h3]
    · have h3 := ih w1 bidx1 rootFolders
      simp only [createPhaseTrace, h]
      rcases h4 : createPhaseTrace rest w1 bidx1 rootFolders with ⟨tr, w3, bidx3⟩
      rw [h4] at h3
      simp [h3]
    · have h3 := ih w1 bidx1 rootFolders
      simp only [createPhaseTrace, h]
      rcases h4 : createPhaseTrace rest w1 bidx1 rootFolders with ⟨tr, w3, bidx3⟩
      rw [h4] at h3
      simp [h3]

/-- C7: every failure of an individual delete/update/move/reorder/create
primitive is caught and recorded as one error while the run continues;
the result satisfies `success = (errors.length = 0)`, its change count is
exactly the number of phase-level primitive operations actually applied,
and its error list is exactly the failure list of the run's trace; the
delete/update/move/create phases process every planned item regardless of
earlier failures (one trace entry per item). -/
theorem c7_failure_accumulation (bookmarks : List BookmarkNode) (w : World)
    (res : WriteResult) (wfin : World)
    (trD trU trM trR trC : List OpOutcome) (wtr : World)
    (hmain : writeBookmarksIncremental bookmarks w = (res, wfin))
    (htr : writeTrace bookmarks w = (trD, trU, trM, trR, trC, wtr)) :
    res.success = res.errors.isEmpty ∧
    res.changes = countApplied (trD ++ trU ++ trM ++ trR ++ trC) ∧
    res.errors = collectFailures (trD ++ trU ++ trM ++ trR ++ trC) ∧
    trD.length = (computeChanges bookmarks (buildBrowserIndex w)).toDelete.length ∧
    trU.length = (computeChanges bookmarks (buildBrowserIndex w)).toUpdate.length ∧
    trM.length = (computeChanges bookmarks (buildBrowserIndex w)).toMove.length ∧
    trC.length = (computeChanges bookmarks (buildBrowserIndex w)).toCreate.length := by
  rcases hD : deletePhaseTrace (computeChanges bookmarks (buildBrowserIndex w)).toDelete w
    with ⟨tD, w1⟩
  rcases hU : updatePhaseTrace (computeChanges bookmarks (buildBrowserIndex w)).toUpdate w1
    with ⟨tU, w2⟩
  rcases hM : movePhaseTrace (computeChanges bookmarks (buildBrowserIndex w)).toMove w2
    (buildBrowserIndex w) (getRootFolders w) with ⟨tM, w3, bidx3⟩
  rcases hR : reorderBatchesTrace
    (groupReorder (computeChanges bookmarks (buildBrowserIndex w)).toReorder) w3 bidx3
    (getRootFolders w) with ⟨tR, w4, bidx4⟩
  rcases hC : createPhaseTrace
    ((computeChanges bookmarks (buildBrowserIndex w)).toCreate.mergeSort
      (fun a b => Nat.ble a.index b.index)) w4 bidx4 (getRootFolders w)
    with ⟨tC, w5, bidx5⟩
  unfold writeTrace at htr
  simp only [] at htr
  rw [hD, hU, hM, hR, hC] at htr
  obtain ⟨rfl, rfl, rfl, rfl, rfl, rfl⟩ :
      trD = tD ∧ trU = tU ∧ trM = tM ∧ trR = tR ∧ trC = tC ∧ wtr = w5 := by
    have h1 := htr
    simp only [Prod.mk.injEq] at h1
    tauto
  unfold writeBookmarksIncremental at hmain
  simp only [] at hmain
  rw [deletePhase_trace] at hmain
  rw [hD] at hmain
  simp only at hmain
  rw [updatePhase_trace] at hmain
  rw [hU] at hmain
  simp only at hmain
  rw [movePhase_trace] at hmain
  rw [hM] at hmain
  simp only at hmain
  rw [reorderBatches_trace] at hmain
  rw [hR] at hmain
  simp only at hmain
  rw [createPhase_trace] at hmain
  rw [hC] at hmain
  simp only [Prod.mk.injEq] at hmain
  obtain ⟨hres, hw⟩ := hmain
  subst hres
  refine ⟨?_, ?_, ?_, ?_, ?_, ?_, ?_⟩
  · rfl
  · simp [countApplied_append]
    omega
  · simp [collectFailures_append]
  · have := deletePhaseTrace_length
      (computeChanges bookmarks (buildBrowserIndex w)).toDelete w
    rw [hD] at this
    simpa using this
  · have := updatePhaseTrace_length
      (computeChanges bookmarks (buildBrowserIndex w)).toUpdate w1
    rw [hU] at this
    simpa using this
  · have := movePhaseTrace_length
      (computeChanges bookmarks (buildBrowserIndex w)).toMove w2
      (buildBrowserIndex w) (getRootFolders w)
    rw [hM] at this
    simpa using this
  · have := createPhaseTrace_length
      ((computeChanges bookmarks (buildBrowserIndex w)).toCreate.mergeSort
        (fun a b => Nat.ble a.index b.index)) w4 bidx4 (getRootFolders w)
    rw [hC] at this
    simp only [List.length_mergeSort] at this
    simpa using this

/-- Witness for C7: reconciling an empty desired tree against a live tree
holding one bookmark performs exactly one applied delete, reports
`success = true`, `changes = 1` and no errors. -/
theorem c7_failure_accumulation_witness :
    writeBookmarksIncremental []
      ⟨[BookmarkNode.mk "2" "b" (some "u") none], 0⟩ =
      ({ success := true, changes := 1, errors := [] }, ⟨[], 0⟩) ∧
    ({ success := true, changes := 1, errors := [] } : WriteResult).changes =
      countApplied ([OpOutcome.applied OpKind.removeOp] ++ [] ++ [] ++ [] ++ []) := by
  have hmain : writeBookmarksIncremental []
      ⟨[BookmarkNode.mk "2" "b" (some "u") none], 0⟩ =
      ({ success := true, changes := 1, errors := [] }, ⟨[], 0⟩) := by
    simp [writeBookmarksIncremental, buildBrowserIndex, buildTraverse,
      getRootFolders, computeChanges, processBookmarkTree, emptyChangesAcc,
      computeDeletes, mapSet, mapGet, deletePhase, removeId, updatePhase,
      movePhase, reorderBatches, groupReorder, createPhase, setAdd,
      BookmarkNode.id, BookmarkNode.title, BookmarkNode.url,
      BookmarkNode.children]
  have htr : writeTrace []
      ⟨[BookmarkNode.mk "2" "b" (some "u") none], 0⟩ =
      ([OpOutcome.applied OpKind.removeOp], [], [], [], [], ⟨[], 0⟩) := by
    simp [writeTrace, buildBrowserIndex, buildTraverse, getRootFolders,
      computeChanges, processBookmarkTree, emptyChangesAcc, computeDeletes,
      mapSet, mapGet, deletePhaseTrace, removeId, updatePhaseTrace,
      movePhaseTrace, reorderBatchesTrace, groupReorder, createPhaseTrace,
      setAdd, BookmarkNode.id, BookmarkNode.title, BookmarkNode.url,
      BookmarkNode.children]
  exact ⟨hmain, (c7_failure_accumulation _ _ _ _ _ _ _ _ _ _ hmain htr).2.1⟩

-- ===================================================================
-- Preservation of (id, url) pairs by the browser primitives (claim C6)
-- ===================================================================

theorem idUrlPairs_nil : idUrlPairs [] = [] := by
  simp [idUrlPairs, allNodes]

theorem idUrlPairs_cons_some (i t : String) (u : Option String)
    (cs rest : List BookmarkNode) :
    idUrlPairs (BookmarkNode.mk i t u (some cs) :: rest) =
      (i, u) :: (idUrlPairs cs ++ idUrlPairs rest) := by
  simp [idUrlPairs, allNodes, BookmarkNode.id, BookmarkNode.url]

theorem idUrlPairs_cons_none (i t : String) (u : Option String)
    (rest : List BookmarkNode) :
    idUrlPairs (BookmarkNode.mk i t u none :: rest) =
      (i, u) :: idUrlPairs rest := by
  simp [idUrlPairs, allNodes, BookmarkNode.id, BookmarkNode.url]

theorem insertAt_perm {α : Type} (l : List α) (i : Nat) (a : α) :
    (insertAt l i a).Perm (a :: l) := by
  induction l generalizing i with
  | nil =>
    rcases i with _ | j <;> simp [insertAt]
  | cons x rest ih =>
    rcases i with _ | j
    · simp [insertAt]
    · simp only [insertAt]
      exact ((ih j).cons x).trans (List.Perm.swap a x rest)

theorem extractTop_perm (x : String) : ∀ (l : List BookmarkNode) n rest,
    extractTop l x = some (n, rest) → l.Perm (n :: rest) := by
  intro l
  induction l with
  | nil => intro n rest h; simp [extractTop] at h
  | cons m tail ih =>
    intro n rest h
    by_cases hid : m.id = x
    · simp only [extractTop, if_pos hid, Option.some.injEq] at h
      injection h with h1 h2
      subst h1
      subst h2
      exact List.Perm.refl _
    · simp only [extractTop, if_neg hid] at h
      rcases h2 : extractTop tail x with _ | ⟨n2, rest2⟩
      · rw [h2] at h
        simp at h
      · rw [h2] at h
        simp only [Option.some.injEq] at h
        injection h with h1 h3
        subst h1
        subst h3
        exact ((ih _ rest2 h2).cons m).trans (List.Perm.swap _ m rest2)

theorem removeId_pairs (y : String) : ∀ (t t' : List BookmarkNode),
    removeId t y = some t' →
    (∀ p ∈ idUrlPairs t', p ∈ idUrlPairs t) ∧
    (∀ p ∈ idUrlPairs t, p.1 ≠ y → p ∈ idUrlPairs t') := by
  intro t
  induction t using bnodeList_ind with
  | hnil => intro t' h; simp [removeId] at h
  | hcons i ttl u c rest ihc ihr =>
    intro t' h
    by_cases hid : i = y
    · rcases c with _ | cs
      · simp only [removeId, if_pos hid, Option.getD, List.isEmpty_nil,
          if_true] at h
        injection h with h2
        subst h2
        constructor
        · intro p hp
          rw [idUrlPairs_cons_none]
          exact List.mem_cons_of_mem _ hp
        · intro p hp hpy
          rw [idUrlPairs_cons_none] at hp
          rcases List.mem_cons.mp hp with h3 | h3
          · exact absurd (by rw [h3, hid]) hpy
          · exact h3
      · rcases cs with _ | ⟨c0, cs0⟩
        · simp only [removeId, if_pos hid, Option.getD, List.isEmpty_nil,
            if_true] at h
          injection h with h2
          subst h2
          constructor
          · intro p hp
            rw [idUrlPairs_cons_some]
            simp only [idUrlPairs_nil, List.nil_append]
            exact List.mem_cons_of_mem _ hp
          · intro p hp hpy
            rw [idUrlPairs_cons_some] at hp
            simp only [idUrlPairs_nil, List.nil_append] at hp
            rcases List.mem_cons.mp hp with h3 | h3
            · exact absurd (by rw [h3, hid]) hpy
            · exact h3
        · simp only [removeId, if_pos hid, Option.getD, List.isEmpty_cons,
            if_false] at h
          exact absurd h (by simp)
    · rcases c with _ | cs
      · simp only [removeId, if_neg hid] at h
        rcases h2 : removeId rest y with _ | rest2
        · rw [h2] at h
          simp at h
        · rw [h2] at h
          injection h with h3
          subst h3
          obtain ⟨hfwd, hbwd⟩ := ihr rest2 h2
          constructor
          · intro p hp
            rw [idUrlPairs_cons_none] at hp ⊢
            rcases List.mem_cons.mp hp with h4 | h4
            · exact h4 ▸ List.mem_cons_self _ _
            · exact List.mem_cons_of_mem _ (hfwd p h4)
          · intro p hp hpy
            rw [idUrlPairs_cons_none] at hp ⊢
            rcases List.mem_cons.mp hp with h4 | h4
            · exact h4 ▸ List.mem_cons_self _ _
            · exact List.mem_cons_of_mem _ (hbwd p h4 hpy)
      · simp only [removeId, if_neg hid] at h
        rcases h2 : removeId cs y with _ | cs2
        · rw [h2] at h
          rcases h3 : removeId rest y with _ | rest2
          · rw [h3] at h
            simp at h
          · rw [h3] at h
            injection h with h4
            subst h4
            obtain ⟨hfwd, hbwd⟩ := ihr rest2 h3
            constructor
            · intro p hp
              rw [idUrlPairs_cons_some] at hp ⊢
              rcases List.mem_cons.mp hp with h5 | h5
              · exact h5 ▸ List.mem_cons_self _ _
              · refine List.mem_cons_of_mem _ ?_
                rcases List.mem_append.mp h5 with h6 | h6
                · exact List.mem_append.mpr (Or.inl h6)
                · exact List.mem_append.mpr (Or.inr (hfwd p h6))
            · intro p hp hpy
              rw [idUrlPairs_cons_some] at hp ⊢
              rcases List.mem_cons.mp hp with h5 | h5
              · exact h5 ▸ List.mem_cons_self _ _
              · refine List.mem_cons_of_mem _ ?_
                rcases List.mem_append.mp h5 with h6 | h6
                · exact List.mem_append.mpr (Or.inl h6)
                · exact List.mem_append.mpr (Or.inr (hbwd p h6 hpy))
        · rw [h2] at h
          injection h with h4
          subst h4
          obtain ⟨hfwd, hbwd⟩ := ihc cs rfl cs2 h2
          constructor
          · intro p hp
            rw [idUrlPairs_cons_some] at hp ⊢
            rcases List.mem_cons.mp hp with h5 | h5
            · exact h5 ▸ List.mem_cons_self _ _
            · refine List.mem_cons_of_mem _ ?_
              rcases List.mem_append.mp h5 with h6 | h6
              · exact List.mem_append.mpr (Or.inl (hfwd p h6))
              · exact List.mem_append.mpr (Or.inr h6)
          · intro p hp hpy
            rw [idUrlPairs_cons_some] at hp ⊢
            rcases List.mem_cons.mp hp with h5 | h5
            · exact h5 ▸ List.mem_cons_self _ _
            · refine List.mem_cons_of_mem _ ?_
              rcases List.mem_append.mp h5 with h6 | h6
              · exact List.mem_append.mpr (Or.inl (hbwd p h6 hpy))
              · exact List.mem_append.mpr (Or.inr h6)

theorem allNodes_append (l1 l2 : List BookmarkNode) :
    allNodes (l1 ++ l2) = allNodes l1 ++ allNodes l2 := by
  induction l1 using bnodeList_ind with
  | hnil => simp [allNodes]
  | hcons i t u c rest ihc ihr =>
    rcases c with _ | cs <;>
      simp [allNodes, ihr]

theorem allNodes_cons_decomp (n : BookmarkNode) (l : List BookmarkNode) :
    allNodes (n :: l) = allNodes [n] ++ allNodes l := by
  obtain ⟨i, t, u, c⟩ := n
  rcases c with _ | cs <;> simp [allNodes]

theorem allNodes_perm (l1 l2 : List BookmarkNode) (h : l1.Perm l2) :
    (allNodes l1).Perm (allNodes l2) := by
  induction h with
  | nil => exact List.Perm.refl _
  | cons n h ih =>
    rename_i l1b l2b
    rw [allNodes_cons_decomp n l1b, allNodes_cons_decomp n l2b]
    exact ih.append_left _
  | swap n1 n2 l =>
    rw [allNodes_cons_decomp n1 (n2 :: l), allNodes_cons_decomp n2 l,
      allNodes_cons_decomp n2 (n1 :: l), allNodes_cons_decomp n1 l]
    rw [← List.append_assoc, ← List.append_assoc]
    exact List.perm_append_comm.append_right _
  | trans h1 h2 ih1 ih2 => exact ih1.trans ih2

theorem idUrlPairs_append (l1 l2 : List BookmarkNode) :
    idUrlPairs (l1 ++ l2) = idUrlPairs l1 ++ idUrlPairs l2 := by
  simp [idUrlPairs, allNodes_append]

theorem idUrlPairs_cons_decomp (n : BookmarkNode) (l : List BookmarkNode) :
    idUrlPairs (n :: l) = idUrlPairs [n] ++ idUrlPairs l := by
  simp [idUrlPairs, allNodes_cons_decomp n l]

theorem idUrlPairs_perm_of (l1 l2 : List BookmarkNode) (h : l1.Perm l2) :
    (idUrlPairs l1).Perm (idUrlPairs l2) :=
  (allNodes_perm l1 l2 h).map _

theorem updateTitleById_pairs (y s : String) : ∀ (t t' : List BookmarkNode),
    updateTitleById t y s = some t' → idUrlPairs t' = idUrlPairs t := by
  intro t
  induction t using bnodeList_ind with
  | hnil => intro t' h; simp [updateTitleById] at h
  | hcons i ttl u c rest ihc ihr =>
    intro t' h
    by_cases hid : i = y
    · rcases c with _ | cs <;>
        simp only [updateTitleById, if_pos hid] at h <;>
        injection h with h2 <;>
        subst h2 <;>
        simp [idUrlPairs_cons_none, idUrlPairs_cons_some]
    · rcases c with _ | cs
      · simp only [updateTitleById, if_neg hid] at h
        rcases h2 : updateTitleById rest y s with _ | rest2
        · rw [h2] at h
          simp at h
        · rw [h2] at h
          injection h with h3
          subst h3
          rw [idUrlPairs_cons_none, idUrlPairs_cons_none, ihr rest2 h2]
      · simp only [updateTitleById, if_neg hid] at h
        rcases h2 : updateTitleById cs y s with _ | cs2
        · rw [h2] at h
          rcases h3 : updateTitleById rest y s with _ | rest2
          · rw [h3] at h
            simp at h
          · rw [h3] at h
            injection h with h4
            subst h4
            rw [idUrlPairs_cons_some, idUrlPairs_cons_some, ihr rest2 h3]
        · rw [h2] at h
          injection h with h4
          subst h4
          rw [idUrlPairs_cons_some, idUrlPairs_cons_some, ihc cs rfl cs2 h2]

theorem detachId_pairs (y : String) : ∀ (t : List BookmarkNode) n t2,
    detachId t y = some (n, t2) →
    (idUrlPairs t).Perm (idUrlPairs [n] ++ idUrlPairs t2) := by
  intro t
  induction t using bnodeList_ind with
  | hnil => intro n t2 h; simp [detachId] at h
  | hcons i ttl u c rest ihc ihr =>
    intro n t2 h
    by_cases hid : i = y
    · rcases c with _ | cs <;>
        simp only [detachId, if_pos hid, Option.some.injEq] at h <;>
        injection h with h1 h2 <;>
        rw [← h1, ← h2] <;>
        rw [idUrlPairs_cons_decomp]
    · rcases c with _ | cs
      · simp only [detachId, if_neg hid] at h
        rcases h2 : detachId rest y with _ | ⟨n2, rest2⟩
        · rw [h2] at h
          simp at h
        · rw [h2] at h
          simp only [Option.some.injEq] at h
          injection h with h1 h3
          rw [← h1, ← h3]
          rw [idUrlPairs_cons_decomp (BookmarkNode.mk i ttl u none) rest,
            idUrlPairs_cons_decomp (BookmarkNode.mk i ttl u none) rest2]
          have ih2 := ihr _ _ h2
          refine (ih2.append_left _).trans ?_
          rw [← List.append_assoc, ← List.append_assoc]
          exact List.perm_append_comm.append_right _
      · simp only [detachId, if_neg hid] at h
        rcases h2 : detachId cs y with _ | ⟨n2, cs2⟩
        · rw [h2] at h
          rcases h3 : detachId rest y with _ | ⟨n3, rest2⟩
          · rw [h3] at h
            simp at h
          · rw [h3] at h
            simp only [Option.some.injEq] at h
            injection h with h1 h4
            rw [← h1, ← h4]
            rw [idUrlPairs_cons_decomp (BookmarkNode.mk i ttl u (some cs)) rest,
              idUrlPairs_cons_decomp (BookmarkNode.mk i ttl u (some cs)) rest2]
            have ih2 := ihr _ _ h3
            refine (ih2.append_left _).trans ?_
            rw [← List.append_assoc, ← List.append_assoc]
            exact List.perm_append_comm.append_right _
        · rw [h2] at h
          simp only [Option.some.injEq] at h
          injection h with h1 h4
          rw [← h1, ← h4]
          have ih2 := ihc cs rfl _ _ h2
          rw [idUrlPairs_cons_some, idUrlPairs_cons_some]
          refine (List.Perm.cons _ ((ih2.append_right _))).trans ?_
          rw [List.append_assoc]
          exact List.perm_middle.symm

theorem insertUnder_pairs (pid : String) (n : BookmarkNode) (idx : Option Nat) :
    ∀ (t t3 : List BookmarkNode), insertUnder t pid n idx = some t3 →
    (idUrlPairs t3).Perm (idUrlPairs [n] ++ idUrlPairs t) := by
  intro t
  induction t using bnodeList_ind with
  | hnil => intro t3 h; simp [insertUnder] at h
  | hcons i ttl u c rest ihc ihr =>
    intro t3 h
    by_cases hid : i = pid
    · rcases u with _ | uu
      · rcases c with _ | cs
        · simp only [insertUnder, if_pos hid] at h
          injection h with h2
          rw [← h2]
          have hins : ∀ j : Nat, insertAt ([] : List BookmarkNode) j n = [n] := by
            intro j
            rcases j with _ | j2 <;> simp [insertAt]
          rw [idUrlPairs_cons_some, idUrlPairs_cons_none]
          simp only [Option.getD]
          rw [hins]
          exact (List.Perm.refl _).trans List.perm_middle.symm
        · simp only [insertUnder, if_pos hid] at h
          injection h with h2
          rw [← h2]
          rw [idUrlPairs_cons_some, idUrlPairs_cons_some]
          simp only [Option.getD]
          have hperm : ∀ j : Nat, (idUrlPairs (insertAt cs j n)).Perm
              (idUrlPairs [n] ++ idUrlPairs cs) := fun j =>
            (idUrlPairs_perm_of _ _ (insertAt_perm cs j n)).trans
              (by rw [idUrlPairs_cons_decomp n cs])
          refine (List.Perm.cons _ ((hperm _).append_right _)).trans ?_
          rw [List.append_assoc]
          exact List.perm_middle.symm
      · rcases c with _ | cs <;> simp only [insertUnder, if_pos hid] at h <;>
          simp at h
    · rcases c with _ | cs <;> rcases u with _ | uu
      · simp only [insertUnder, if_neg hid] at h
        rcases h2 : insertUnder rest pid n idx with _ | rest2
        · rw [h2] at h
          simp at h
        · rw [h2] at h
          injection h with h3
          rw [← h3]
          rw [idUrlPairs_cons_none, idUrlPairs_cons_none]
          exact (List.Perm.cons _ (ihr _ h2)).trans List.perm_middle.symm
      · simp only [insertUnder, if_neg hid] at h
        rcases h2 : insertUnder rest pid n idx with _ | rest2
        · rw [h2] at h
          simp at h
        · rw [h2] at h
          injection h with h3
          rw [← h3]
          rw [idUrlPairs_cons_none, idUrlPairs_cons_none]
          exact (List.Perm.cons _ (ihr _ h2)).trans List.perm_middle.symm
      · simp only [insertUnder, if_neg hid] at h
        rcases h2 : insertUnder cs pid n idx with _ | cs2
        · rw [h2] at h
          rcases h3 : insertUnder rest pid n idx with _ | rest2
          · rw [h3] at h
            simp at h
          · rw [h3] at h
            injection h with h4
            rw [← h4]
            rw [idUrlPairs_cons_some, idUrlPairs_cons_some]
            refine (List.Perm.cons _ ((ihr _ h3).append_left _)).trans ?_
            refine List.Perm.trans ?_ List.perm_middle.symm
            apply List.Perm.cons
            rw [← List.append_assoc, ← List.append_assoc]
            exact List.perm_append_comm.append_right _
        · rw [h2] at h
          injection h with h4
          rw [← h4]
          rw [idUrlPairs_cons_some, idUrlPairs_cons_some]
          refine (List.Perm.cons _ ((ihc cs rfl _ h2).append_right _)).trans ?_
          rw [List.append_assoc]
          exact List.perm_middle.symm
      · simp only [insertUnder, if_neg hid] at h
        rcases h2 : insertUnder cs pid n idx with _ | cs2
        · rw [h2] at h
          rcases h3 : insertUnder rest pid n idx with _ | rest2
          · rw [h3] at h
            simp at h
          · rw [h3] at h
            injection h with h4
            rw [← h4]
            rw [idUrlPairs_cons_some, idUrlPairs_cons_some]
            refine (List.Perm.cons _ ((ihr _ h3).append_left _)).trans ?_
            refine List.Perm.trans ?_ List.perm_middle.symm
            apply List.Perm.cons
            rw [← List.append_assoc, ← List.append_assoc]
            exact List.perm_append_comm.append_right _
        · rw [h2] at h
          injection h with h4
          rw [← h4]
          rw [idUrlPairs_cons_some, idUrlPairs_cons_some]
          refine (List.Perm.cons _ ((ihc cs rfl _ h2).append_right _)).trans ?_
          rw [List.append_assoc]
          exact List.perm_middle.symm

theorem moveToParent_pairs (x pid : String) (idx : Nat)
    (t t' : List BookmarkNode) (h : moveToParent t x pid idx = some t') :
    (idUrlPairs t').Perm (idUrlPairs t) := by
  unfold moveToParent at h
  rcases h1 : detachId t x with _ | ⟨n, t2⟩
  · rw [h1] at h
    simp at h
  · rw [h1] at h
    have hd := detachId_pairs x t n t2 h1
    have hi := insertUnder_pairs pid n (some idx) t2 t' h
    exact hi.trans hd.symm

theorem moveWithinParent_pairs (x : String) (idx : Nat) :
    ∀ (l l' : List BookmarkNode), moveWithinParent l x idx = some l' →
    (idUrlPairs l').Perm (idUrlPairs l) := by
  intro l
  induction l using bnodeList_ind with
  | hnil =>
    intro l' h
    simp [moveWithinParent] at h
  | hcons i ttl u c rest ihc ihr =>
    intro l' h
    rcases h1 : extractTop (BookmarkNode.mk i ttl u c :: rest) x with _ | ⟨n, rest2⟩
    · rcases c with _ | cs
      · simp only [moveWithinParent, h1] at h
        rcases h2 : moveWithinParent rest x idx with _ | rest3
        · rw [h2] at h
          simp at h
        · rw [h2] at h
          injection h with h3
          rw [← h3]
          rw [idUrlPairs_cons_none, idUrlPairs_cons_none]
          exact (ihr _ h2).cons _
      · simp only [moveWithinParent, h1] at h
        rcases h2 : moveWithinParent cs x idx with _ | cs2
        · rw [h2] at h
          rcases h3 : moveWithinParent rest x idx with _ | rest3
          · rw [h3] at h
            simp at h
          · rw [h3] at h
            injection h with h4
            rw [← h4]
            rw [idUrlPairs_cons_some, idUrlPairs_cons_some]
            exact ((ihr _ h3).append_left _).cons _
        · rw [h2] at h
          injection h with h4
          rw [← h4]
          rw [idUrlPairs_cons_some, idUrlPairs_cons_some]
          exact (((ihc cs rfl _ h2)).append_right _).cons _
    · rcases c with _ | cs <;>
        simp only [moveWithinParent, h1] at h <;>
        injection h with h2 <;>
        rw [← h2] <;>
        exact idUrlPairs_perm_of _ _
          ((insertAt_perm rest2 idx n).trans (extractTop_perm x _ n rest2 h1).symm)

theorem createNode_pairs (w : World) (pid title : String) (url : Option String)
    (idx : Option Nat) (nid : String) (w2 : World)
    (h : createNode w pid title url idx = some (nid, w2)) :
    (idUrlPairs w2.tree).Perm ((nid, url) :: idUrlPairs w.tree) := by
  rcases url with _ | uu
  · simp only [createNode] at h
    rcases h1 : insertUnder w.tree pid
        (BookmarkNode.mk ("new:" ++ toString w.fresh) title none (some [])) idx
        with _ | t2
    · rw [h1] at h
      simp at h
    · rw [h1] at h
      simp only [Option.some.injEq, Prod.mk.injEq] at h
      obtain ⟨h2, h3⟩ := h
      have hi := insertUnder_pairs pid _ idx w.tree t2 h1
      rw [idUrlPairs_cons_some] at hi
      simp only [idUrlPairs_nil, List.nil_append] at hi
      rw [← h3, ← h2]
      exact hi
  · simp only [createNode] at h
    rcases h1 : insertUnder w.tree pid
        (BookmarkNode.mk ("new:" ++ toString w.fresh) title (some uu) none) idx
        with _ | t2
    · rw [h1] at h
      simp at h
    · rw [h1] at h
      simp only [Option.some.injEq, Prod.mk.injEq] at h
      obtain ⟨h2, h3⟩ := h
      have hi := insertUnder_pairs pid _ idx w.tree t2 h1
      rw [idUrlPairs_cons_none] at hi
      simp only [idUrlPairs_nil, List.nil_append] at hi
      rw [← h3, ← h2]
      exact hi

theorem ensureParentFolder_pairs :
    ∀ (path : List String) (w : World) (bidx : BrowserBookmarkIndex)
      (rootFolders : List (List String × String))
      (p : String × Option String), p ∈ idUrlPairs w.tree →
      p ∈ idUrlPairs (ensureParentFolder path w bidx rootFolders).2.1.tree := by
  intro path w bidx rootFolders
  induction path, w, bidx, rootFolders using ensureParentFolder.induct with
  | case1 w bidx rootFolders =>
    intro p hp
    rw [ensureParentFolder]
    simpa using hp
  | case2 parentPath w bidx rootFolders hne rid hroot =>
    intro p hp
    rw [ensureParentFolder]
    simp only [if_neg hne, hroot]
    exact hp
  | case3 parentPath w bidx rootFolders hne hroot n hpath =>
    intro p hp
    rw [ensureParentFolder]
    simp only [if_neg hne, hroot, hpath]
    exact hp
  | case4 parentPath w bidx rootFolders hne hroot hpath folderTitle pid w1 bidx1 hrec newId w2 hcr ih =>
    intro p hp
    rw [ensureParentFolder]
    simp only [if_neg hne, hroot, hpath, hrec, hcr]
    have h1 := ih p hp
    rw [hrec] at h1
    have h2 := createNode_pairs w1 pid _ none none newId w2 hcr
    exact h2.mem_iff.mpr (List.mem_cons_of_mem _ h1)
  | case5 parentPath w bidx rootFolders hne hroot hpath folderTitle pid w1 bidx1 hrec hcr ih =>
    intro p hp
    rw [ensureParentFolder]
    simp only [if_neg hne, hroot, hpath, hrec, hcr]
    have h1 := ih p hp
    rw [hrec] at h1
    exact h1
  | case6 parentPath w bidx rootFolders hne hroot hpath w1 bidx1 hrec ih =>
    intro p hp
    rw [ensureParentFolder]
    simp only [if_neg hne, hroot, hpath, hrec]
    have h1 := ih p hp
    rw [hrec] at h1
    exact h1
  | case7 parentPath w bidx rootFolders hne hroot hpath w1 bidx1 hrec ih =>
    intro p hp
    rw [ensureParentFolder]
    simp only [if_neg hne, hroot, hpath, hrec]
    have h1 := ih p hp
    rw [hrec] at h1
    exact h1

theorem deletePhase_pairs (items : List String) :
    ∀ w changes errors (p : String × Option String),
      p ∈ idUrlPairs w.tree → p.1 ∉ items →
      p ∈ idUrlPairs (deletePhase items w changes errors).1.tree := by
  induction items with
  | nil =>
    intro w c e p hp _
    simpa [deletePhase] using hp
  | cons id rest ih =>
    intro w c e p hp hni
    simp only [List.mem_cons, not_or] at hni
    rcases h : removeId w.tree id with _ | t2
    · simp only [deletePhase, h]
      exact ih _ _ _ p hp hni.2
    · simp only [deletePhase, h]
      exact ih _ _ _ p ((removeId_pairs id w.tree t2 h).2 p hp hni.1) hni.2

theorem updatePhase_pairs (items : List UpdateItem) :
    ∀ w changes errors (p : String × Option String),
      p ∈ idUrlPairs w.tree →
      p ∈ idUrlPairs (updatePhase items w changes errors).1.tree := by
  induction items with
  | nil =>
    intro w c e p hp
    simpa [updatePhase] using hp
  | cons item rest ih =>
    intro w c e p hp
    rcases h : updateTitleById w.tree item.browserId item.node.title with _ | t2
    · simp only [updatePhase, h]
      exact ih _ _ _ p hp
    · simp only [updatePhase, h]
      refine ih _ _ _ p ?_
      rw [show ({ w with tree := t2 } : World).tree = t2 from rfl,
        updateTitleById_pairs _ _ _ _ h]
      exact hp

theorem movePhase_pairs (items : List MoveItem) :
    ∀ w bidx rootFolders changes errors (p : String × Option String),
      p ∈ idUrlPairs w.tree →
      p ∈ idUrlPairs (movePhase items w bidx rootFolders changes errors).1.tree := by
  induction items with
  | nil =>
    intro w bidx rootFolders c e p hp
    simpa [movePhase] using hp
  | cons item rest ih =>
    intro w bidx rootFolders c e p hp
    rcases h : ensureParentFolder item.newParentPath w bidx rootFolders with
      ⟨eres, w1, bidx1⟩
    have hp1 : p ∈ idUrlPairs w1.tree := by
      have := ensureParentFolder_pairs item.newParentPath w bidx rootFolders p hp
      rw [h] at this
      exact this
    rcases eres with pid | _ | _
    · rcases h2 : moveToParent w1.tree item.browserId pid item.newIndex with _ | t2
      · simp only [movePhase, h, h2]
        exact ih _ _ _ _ _ p hp1
      · simp only [movePhase, h, h2]
        refine ih _ _ _ _ _ p ?_
        rw [show ({ w1 with tree := t2 } : World).tree = t2 from rfl]
        exact (moveToParent_pairs _ _ _ _ _ h2).mem_iff.mpr hp1
    · simp only [movePhase, h]
      exact ih _ _ _ _ _ p hp1
    · simp only [movePhase, h]
      exact ih _ _ _ _ _ p hp1

theorem reorderLoop_pairs (parentPath : List String) (items : List ReorderItem) :
    ∀ currentChildren w changes errors (p : String × Option String),
      p ∈ idUrlPairs w.tree →
      p ∈ idUrlPairs (reorderLoop parentPath items currentChildren w changes errors).1.tree := by
  induction items with
  | nil =>
    intro cc w c e p hp
    simpa [reorderLoop] using hp
  | cons item rest ih =>
    intro cc w c e p hp
    rcases h : idIndexOf cc item.browserId with _ | currentIndex
    · simp only [reorderLoop, h]
      exact ih _ _ _ _ p hp
    · by_cases heq : currentIndex = item.newIndex
      · simp only [reorderLoop, h, heq, eq_self_iff_true, if_true]
        exact ih _ _ _ _ p hp
      · rcases h2 : moveWithinParent w.tree item.browserId item.newIndex with _ | t2
        · simp only [reorderLoop, h, if_neg heq, h2]
          exact hp
        · have hp2 : p ∈ idUrlPairs t2 :=
            (moveWithinParent_pairs _ _ _ _ h2).mem_iff.mpr hp
          rcases h3 : extractTop cc item.browserId with _ | ⟨cnode, restChildren⟩ <;>
            simp only [reorderLoop, h, if_neg heq, h2, h3] <;>
            exact ih _ _ _ _ p hp2

theorem reorderBatches_pairs (batches : List (List String × List ReorderItem)) :
    ∀ w bidx rootFolders changes errors (p : String × Option String),
      p ∈ idUrlPairs w.tree →
      p ∈ idUrlPairs (reorderBatches batches w bidx rootFolders changes errors).1.tree := by
  induction batches with
  | nil =>
    intro w bidx rootFolders c e p hp
    simpa [reorderBatches] using hp
  | cons batch rest ih =>
    intro w bidx rootFolders c e p hp
    obtain ⟨parentPath, items⟩ := batch
    rcases h : ensureParentFolder parentPath w bidx rootFolders with ⟨eres, w1, bidx1⟩
    have hp1 : p ∈ idUrlPairs w1.tree := by
      have := ensureParentFolder_pairs parentPath w bidx rootFolders p hp
      rw [h] at this
      exact this
    rcases eres with pid | _ | _
    · rcases h2 : findId w1.tree pid with _ | parent
      · simp only [reorderBatches, h, h2]
        exact ih _ _ _ _ _ p hp1
      · rcases h3 : parent.children with _ | currentChildren
        · simp only [reorderBatches, h, h2, h3]
          exact ih _ _ _ _ _ p hp1
        · simp only [reorderBatches, h, h2, h3]
          rcases h4 : reorderLoop parentPath
            (items.mergeSort (fun a b => Nat.ble a.newIndex b.newIndex))
            currentChildren w1 c e with ⟨w2, c2, e2⟩
          have hp2 := reorderLoop_pairs parentPath (items.mergeSort (fun a b => Nat.ble a.newIndex b.newIndex)) currentChildren w1 c e p hp1
          rw [h4] at hp2
          exact ih _ _ _ _ _ p hp2
    · simp only [reorderBatches, h]
      exact ih _ _ _ _ _ p hp1
    · simp only [reorderBatches, h]
      exact ih _ _ _ _ _ p hp1

theorem createPhase_pairs (items : List CreateItem) :
    ∀ w bidx rootFolders changes errors (p : String × Option String),
      p ∈ idUrlPairs w.tree →
      p ∈ idUrlPairs (createPhase items w bidx rootFolders changes errors).1.tree := by
  induction items with
  | nil =>
    intro w bidx rootFolders c e p hp
    simpa [createPhase] using hp
  | cons item rest ih =>
    intro w bidx rootFolders c e p hp
    rcases h : ensureParentFolder item.parentPath w bidx rootFolders with
      ⟨eres, w1, bidx1⟩
    have hp1 : p ∈ idUrlPairs w1.tree := by
      have := ensureParentFolder_pairs item.parentPath w bidx rootFolders p hp
      rw [h] at this
      exact this
    rcases eres with pid | _ | _
    · rcases h2 : createNode w1 pid item.node.title item.node.url (some item.index)
        with _ | ⟨newId, w2⟩
      · simp only [createPhase, h, h2]
        exact ih _ _ _ _ _ p hp1
      · simp only [createPhase, h, h2]
        refine ih _ _ _ _ _ p ?_
        exact (createNode_pairs _ _ _ _ _ _ _ h2).mem_iff.mpr
          (List.mem_cons_of_mem _ hp1)
    · simp only [createPhase, h]
      exact ih _ _ _ _ _ p hp1
    · simp only [createPhase, h]
      exact ih _ _ _ _ _ p hp1

/-- A node pair of the live tree whose id the computed change set does not
delete survives the whole incremental write. -/
theorem writeIncremental_pairs_preserved (desired : List BookmarkNode)
    (w : World) (res : WriteResult) (wfin : World) (p : String × Option String)
    (hrun : writeBookmarksIncremental desired w = (res, wfin))
    (hp : p ∈ idUrlPairs w.tree)
    (hnd : p.1 ∉ (computeChanges desired (buildBrowserIndex w)).toDelete) :
    p ∈ idUrlPairs wfin.tree := by
  unfold writeBookmarksIncremental at hrun
  simp only [] at hrun
  rcases h1 : deletePhase (computeChanges desired (buildBrowserIndex w)).toDelete w 0 []
    with ⟨w1, c1, e1⟩
  have hp1 := deletePhase_pairs (computeChanges desired (buildBrowserIndex w)).toDelete w 0 [] p hp hnd
  rw [h1] at hp1 hrun
  rcases h2 : updatePhase (computeChanges desired (buildBrowserIndex w)).toUpdate w1 c1 e1
    with ⟨w2, c2, e2⟩
  have hp2 := updatePhase_pairs (computeChanges desired (buildBrowserIndex w)).toUpdate w1 c1 e1 p hp1
  rw [h2] at hp2 hrun
  rcases h3 : movePhase (computeChanges desired (buildBrowserIndex w)).toMove w2
    (buildBrowserIndex w) (getRootFolders w) c2 e2 with ⟨w3, bidx3, c3, e3⟩
  have hp3 := movePhase_pairs (computeChanges desired (buildBrowserIndex w)).toMove w2 (buildBrowserIndex w) (getRootFolders w) c2 e2 p hp2
  rw [h3] at hp3 hrun
  rcases h4 : reorderBatches
    (groupReorder (computeChanges desired (buildBrowserIndex w)).toReorder) w3 bidx3
    (getRootFolders w) c3 e3 with ⟨w4, bidx4, c4, e4⟩
  have hp4 := reorderBatches_pairs (groupReorder (computeChanges desired (buildBrowserIndex w)).toReorder) w3 bidx3 (getRootFolders w) c3 e3 p hp3
  rw [h4] at hp4 hrun
  rcases h5 : createPhase
    ((computeChanges desired (buildBrowserIndex w)).toCreate.mergeSort
      (fun a b => Nat.ble a.index b.index)) w4 bidx4 (getRootFolders w) c4 e4
    with ⟨w5, bidx5, c5, e5⟩
  have hp5 := createPhase_pairs ((computeChanges desired (buildBrowserIndex w)).toCreate.mergeSort (fun a b => Nat.ble a.index b.index)) w4 bidx4 (getRootFolders w) c4 e4 p hp4
  rw [h5] at hp5 hrun
  simp only [Prod.mk.injEq] at hrun
  rw [← hrun.2]
  exact hp5

theorem mem_computeDeletes_aux (remoteUrls : List String)
    (byUrl : List (String × BookmarkNode)) :
    ∀ (acc : List String) (y : String),
      y ∈ byUrl.foldl
        (fun acc kv => if kv.1 ∈ remoteUrls then acc else acc ++ [kv.2.id]) acc ↔
      y ∈ acc ∨ ∃ url n, (url, n) ∈ byUrl ∧ url ∉ remoteUrls ∧ n.id = y := by
  induction byUrl with
  | nil => intro acc y; simp
  | cons kv rest ih =>
    intro acc y
    obtain ⟨url1, n1⟩ := kv
    by_cases hmem : url1 ∈ remoteUrls
    · simp only [List.foldl_cons, if_pos hmem]
      rw [ih]
      constructor
      · rintro (h | ⟨url, n, hm, hnm, hid⟩)
        · exact Or.inl h
        · exact Or.inr ⟨url, n, List.mem_cons_of_mem _ hm, hnm, hid⟩
      · rintro (h | ⟨url, n, hm, hnm, hid⟩)
        · exact Or.inl h
        · rcases List.mem_cons.mp hm with h2 | h2
          · injection h2 with h3 h4
            subst h3
            exact absurd hmem hnm
          · exact Or.inr ⟨url, n, h2, hnm, hid⟩
    · simp only [List.foldl_cons, if_neg hmem]
      rw [ih]
      constructor
      · rintro (h | ⟨url, n, hm, hnm, hid⟩)
        · rcases List.mem_append.mp h with h2 | h2
          · exact Or.inl h2
          · simp only [List.mem_singleton] at h2
            exact Or.inr ⟨url1, n1, List.mem_cons_self _ _, hmem, h2.symm⟩
        · exact Or.inr ⟨url, n, List.mem_cons_of_mem _ hm, hnm, hid⟩
      · rintro (h | ⟨url, n, hm, hnm, hid⟩)
        · exact Or.inl (List.mem_append.mpr (Or.inl h))
        · rcases List.mem_cons.mp hm with h2 | h2
          · injection h2 with h3 h4
            subst h3
            subst h4
            exact Or.inl (List.mem_append.mpr (Or.inr (by simp [hid])))
          · exact Or.inr ⟨url, n, h2, hnm, hid⟩

theorem mem_computeDeletes (byUrl : List (String × BookmarkNode))
    (remoteUrls : List String) (y : String) :
    y ∈ computeDeletes byUrl remoteUrls ↔
      ∃ url n, (url, n) ∈ byUrl ∧ url ∉ remoteUrls ∧ n.id = y := by
  unfold computeDeletes
  rw [mem_computeDeletes_aux]
  simp

theorem mem_setAdd {α : Type} [DecidableEq α] (s : List α) (a b : α) :
    a ∈ setAdd s b ↔ a ∈ s ∨ a = b := by
  unfold setAdd
  by_cases h : b ∈ s
  · simp only [if_pos h]
    constructor
    · exact Or.inl
    · rintro (h2 | h2)
      · exact h2
      · exact h2 ▸ h
  · simp [if_neg h]

theorem classifyUrlNode_remoteUrls (bidx : BrowserBookmarkIndex)
    (node : BookmarkNode) (uu : String) (parentPath : List String) (pos : Nat)
    (acc : ChangesAcc) :
    (classifyUrlNode bidx node uu parentPath pos acc).remoteUrls =
      setAdd acc.remoteUrls uu := by
  unfold classifyUrlNode
  rcases mapGet bidx.byUrl uu with _ | existing
  · rfl
  · simp only []
    split <;> split <;> first
      | rfl
      | (split <;> rfl)

theorem traverseRemote_urls (bidx : BrowserBookmarkIndex)
    (nodes : List BookmarkNode) :
    ∀ (pp : List String) (pos : Nat) (acc : ChangesAcc) (x : String),
      wfNodes nodes = true →
      (x ∈ acc.remoteUrls ∨ x ∈ urlOccurrences nodes) →
      x ∈ (traverseRemote bidx nodes pp pos acc).remoteUrls := by
  induction nodes using bnodeList_ind with
  | hnil =>
    intro pp pos acc x _ hx
    rcases hx with h | h
    · simpa [traverseRemote] using h
    · simp [urlOccurrences] at h
  | hcons i t u c rest ihc ihr =>
    intro pp pos acc x hwf hx
    rcases u with _ | uu
    · rcases c with _ | cs
      · simp [wfNodes] at hwf
        simp only [traverseRemote]
        refine ihr _ _ _ x hwf ?_
        rcases hx with h | h
        · exact Or.inl h
        · simp [urlOccurrences] at h
          exact Or.inr h
      · simp [wfNodes] at hwf
        simp only [traverseRemote]
        refine ihr _ _ _ x hwf.2 ?_
        rcases hx with h | h
        · exact Or.inl (ihc cs rfl _ _ _ x hwf.1 (Or.inl h))
        · simp [urlOccurrences] at h
          rcases h with h | h
          · exact Or.inl (ihc cs rfl _ _ _ x hwf.1 (Or.inr h))
          · exact Or.inr h
    · rcases c with _ | cs
      · simp [wfNodes] at hwf
        simp only [traverseRemote]
        refine ihr _ _ _ x hwf ?_
        rcases hx with h | h
        · refine Or.inl ?_
          rw [classifyUrlNode_remoteUrls]
          exact (mem_setAdd _ _ _).mpr (Or.inl h)
        · simp [urlOccurrences] at h
          rcases h with h | h
          · refine Or.inl ?_
            rw [classifyUrlNode_remoteUrls]
            exact (mem_setAdd _ _ _).mpr (Or.inr h)
          · exact Or.inr h
      · simp [wfNodes] at hwf

theorem processBookmarkTree_urls (bidx : BrowserBookmarkIndex)
    (nodes : List BookmarkNode) :
    ∀ (pos : Nat) (acc : ChangesAcc) (x : String),
      wfNodes nodes = true →
      (x ∈ acc.remoteUrls ∨ x ∈ urlOccurrences nodes) →
      x ∈ (processBookmarkTree bidx nodes pos acc).remoteUrls := by
  induction nodes using bnodeList_ind with
  | hnil =>
    intro pos acc x _ hx
    rcases hx with h | h
    · simpa [processBookmarkTree] using h
    · simp [urlOccurrences] at h
  | hcons i t u c rest ihc ihr =>
    intro pos acc x hwf hx
    by_cases hskip : t = "" ∧ c.isSome
    · obtain ⟨ht, hcs⟩ := hskip
      rcases c with _ | cs
      · simp at hcs
      · subst ht
        rcases u with _ | uu
        · simp [wfNodes] at hwf
          simp only [processBookmarkTree]
          rw [if_pos (by simp)]
          refine ihr _ _ x hwf.2 ?_
          rcases hx with h | h
          · exact Or.inl (ihc cs rfl _ _ x hwf.1 (Or.inl h))
          · simp [urlOccurrences] at h
            rcases h with h | h
            · exact Or.inl (ihc cs rfl _ _ x hwf.1 (Or.inr h))
            · exact Or.inr h
        · simp [wfNodes] at hwf
    · rcases u with _ | uu
      · rcases c with _ | cs
        · simp [wfNodes] at hwf
          simp only [processBookmarkTree]
          rw [if_neg (by simpa using hskip), if_neg (by simp)]
          refine ihr _ _ x hwf ?_
          rcases hx with h | h
          · exact Or.inl h
          · simp [urlOccurrences] at h
            exact Or.inr h
        · simp [wfNodes] at hwf
          simp only [processBookmarkTree]
          rw [if_neg (by simpa using hskip), if_pos (by simp)]
          refine ihr _ _ x hwf.2 ?_
          rcases hx with h | h
          · refine Or.inl ?_
            exact traverseRemote_urls bidx cs _ _ _ x hwf.1 (Or.inl h)
          · simp [urlOccurrences] at h
            rcases h with h | h
            · exact Or.inl (traverseRemote_urls bidx cs _ _ _ x hwf.1 (Or.inr h))
            · exact Or.inr h
      · rcases c with _ | cs
        · simp [wfNodes] at hwf
          simp only [processBookmarkTree]
          rw [if_neg (by simpa using hskip), if_neg (by simp)]
          refine ihr _ _ x hwf ?_
          rcases hx with h | h
          · refine Or.inl ?_
            rw [classifyUrlNode_remoteUrls]
            exact (mem_setAdd _ _ _).mpr (Or.inl h)
          · simp [urlOccurrences] at h
            rcases h with h | h
            · refine Or.inl ?_
              rw [classifyUrlNode_remoteUrls]
              exact (mem_setAdd _ _ _).mpr (Or.inr h)
            · exact Or.inr h
        · simp [wfNodes] at hwf

theorem buildTraverse_byUrl_sub (nodes : List BookmarkNode) :
    ∀ (pp : List String) (pos : Nat) (idx : BrowserBookmarkIndex)
      (url : String) (n : BookmarkNode),
      (url, n) ∈ (buildTraverse nodes pp pos idx).byUrl →
      (url, n) ∈ idx.byUrl ∨
        (n.url = some url ∧ (n.id, n.url) ∈ idUrlPairs nodes) := by
  induction nodes using bnodeList_ind with
  | hnil =>
    intro pp pos idx url n h
    simp only [buildTraverse] at h
    exact Or.inl h
  | hcons i t u c rest ihc ihr =>
    intro pp pos idx url n h
    rcases u with _ | uu <;> rcases c with _ | cs
    · simp only [buildTraverse] at h
      rw [if_neg (by simp)] at h
      rcases ihr pp (pos + 1) _ url n h with h2 | h2
      · exact Or.inl h2
      · refine Or.inr ⟨h2.1, ?_⟩
        rw [idUrlPairs_cons_none]
        exact List.mem_cons_of_mem _ h2.2
    · by_cases ht : t = ""
      · subst ht
        simp only [buildTraverse] at h
        rw [if_pos (by simp)] at h
        rcases ihr pp (pos + 1) _ url n h with h2 | h2
        · rcases ihc cs rfl [] 0 _ url n h2 with h3 | h3
          · exact Or.inl h3
          · refine Or.inr ⟨h3.1, ?_⟩
            rw [idUrlPairs_cons_some]
            exact List.mem_cons_of_mem _ (List.mem_append.mpr (Or.inl h3.2))
        · refine Or.inr ⟨h2.1, ?_⟩
          rw [idUrlPairs_cons_some]
          exact List.mem_cons_of_mem _ (List.mem_append.mpr (Or.inr h2.2))
      · simp only [buildTraverse] at h
        rw [if_neg (by simp [ht])] at h
        rcases ihr pp (pos + 1) _ url n h with h2 | h2
        · rcases ihc cs rfl (pp ++ [t]) 0 _ url n h2 with h3 | h3
          · exact Or.inl h3
          · refine Or.inr ⟨h3.1, ?_⟩
            rw [idUrlPairs_cons_some]
            exact List.mem_cons_of_mem _ (List.mem_append.mpr (Or.inl h3.2))
        · refine Or.inr ⟨h2.1, ?_⟩
          rw [idUrlPairs_cons_some]
          exact List.mem_cons_of_mem _ (List.mem_append.mpr (Or.inr h2.2))
    · simp only [buildTraverse] at h
      rw [if_neg (by simp)] at h
      rcases ihr pp (pos + 1) _ url n h with h2 | h2
      · rcases mem_mapSet _ _ _ _ h2 with h3 | h3
        · exact Or.inl h3
        · rw [Prod.mk.injEq] at h3
          obtain ⟨h4, h5⟩ := h3
          subst h4
          subst h5
          refine Or.inr ⟨by simp [BookmarkNode.url], ?_⟩
          rw [idUrlPairs_cons_none]
          simp [BookmarkNode.url, BookmarkNode.id]
      · refine Or.inr ⟨h2.1, ?_⟩
        rw [idUrlPairs_cons_none]
        exact List.mem_cons_of_mem _ h2.2
    · by_cases ht : t = ""
      · subst ht
        simp only [buildTraverse] at h
        rw [if_pos (by simp)] at h
        rcases ihr pp (pos + 1) _ url n h with h2 | h2
        · rcases ihc cs rfl [] 0 _ url n h2 with h3 | h3
          · exact Or.inl h3
          · refine Or.inr ⟨h3.1, ?_⟩
            rw [idUrlPairs_cons_some]
            exact List.mem_cons_of_mem _ (List.mem_append.mpr (Or.inl h3.2))
        · refine Or.inr ⟨h2.1, ?_⟩
          rw [idUrlPairs_cons_some]
          exact List.mem_cons_of_mem _ (List.mem_append.mpr (Or.inr h2.2))
      · simp only [buildTraverse] at h
        rw [if_neg (by simp [ht])] at h
        rcases ihr pp (pos + 1) _ url n h with h2 | h2
        · rcases ihc cs rfl pp 0 _ url n h2 with h3 | h3
          · rcases mem_mapSet _ _ _ _ h3 with h4 | h4
            · exact Or.inl h4
            · rw [Prod.mk.injEq] at h4
              obtain ⟨h5, h6⟩ := h4
              subst h5
              subst h6
              refine Or.inr ⟨by simp [BookmarkNode.url], ?_⟩
              rw [idUrlPairs_cons_some]
              simp [BookmarkNode.url, BookmarkNode.id]
          · refine Or.inr ⟨h3.1, ?_⟩
            rw [idUrlPairs_cons_some]
            exact List.mem_cons_of_mem _ (List.mem_append.mpr (Or.inl h3.2))
        · refine Or.inr ⟨h2.1, ?_⟩
          rw [idUrlPairs_cons_some]
          exact List.mem_cons_of_mem _ (List.mem_append.mpr (Or.inr h2.2))

theorem idUrlPairs_unique (t : List BookmarkNode) (hnd : (idsOf t).Nodup)
    (y : String) (a b : Option String)
    (ha : (y, a) ∈ idUrlPairs t) (hb : (y, b) ∈ idUrlPairs t) : a = b := by
  have hk : (mapKeys (idUrlPairs t)).Nodup := by
    have he : mapKeys (idUrlPairs t) = idsOf t := by
      simp [mapKeys, idUrlPairs, idsOf, List.map_map, Function.comp]
    rw [he]
    exact hnd
  have h1 := mapGet_of_mem _ _ _ ha hk
  have h2 := mapGet_of_mem _ _ _ hb hk
  rw [h1] at h2
  exact Option.some.inj h2

/-- **C6.** For every URL present in both the desired tree and the live
browser tree (well-formed desired tree, duplicate-free live ids), the
writer never deletes that bookmark's node — its browser id is not in the
delete set computed by `computeChanges` — and after
`writeBookmarksIncremental` completes the node's id still carries that URL
in the final tree: the node was not deleted and recreated under a fresh
id. -/
theorem c6_identity_preservation (desired : List BookmarkNode) (w : World)
    (res : WriteResult) (wfin : World) (u : String) (existing : BookmarkNode)
    (hwf : wfNodes desired = true)
    (hnd : (idsOf w.tree).Nodup)
    (hdes : u ∈ urlOccurrences desired)
    (hlive : mapGet (buildBrowserIndex w).byUrl u = some existing)
    (hrun : writeBookmarksIncremental desired w = (res, wfin)) :
    existing.id ∉ (computeChanges desired (buildBrowserIndex w)).toDelete ∧
      (existing.id, some u) ∈ idUrlPairs wfin.tree := by
  have hmem : (u, existing) ∈ (buildBrowserIndex w).byUrl :=
    mem_of_mapGet _ _ _ hlive
  have hco := buildTraverse_byUrl_sub w.tree [] 0 ⟨[], [], [], []⟩ u existing
    (by simpa [buildBrowserIndex] using hmem)
  rcases hco with h0 | ⟨hurl, hpair⟩
  · simp at h0
  rw [hurl] at hpair
  have hrem : u ∈ (processBookmarkTree (buildBrowserIndex w) desired 0
      emptyChangesAcc).remoteUrls :=
    processBookmarkTree_urls (buildBrowserIndex w) desired 0 emptyChangesAcc u
      hwf (Or.inr hdes)
  have hnotdel : existing.id ∉
      (computeChanges desired (buildBrowserIndex w)).toDelete := by
    intro hdel
    simp only [computeChanges] at hdel
    rw [mem_computeDeletes] at hdel
    obtain ⟨url2, n2, hmem2, hnotin2, hid2⟩ := hdel
    have hco2 := buildTraverse_byUrl_sub w.tree [] 0 ⟨[], [], [], []⟩ url2 n2
      (by simpa [buildBrowserIndex] using hmem2)
    rcases hco2 with h0 | ⟨hurl2, hpair2⟩
    · simp at h0
    rw [hurl2, hid2] at hpair2
    have heq := idUrlPairs_unique w.tree hnd existing.id (some u) (some url2)
      hpair hpair2
    have heq2 := Option.some.inj heq
    subst heq2
    exact hnotin2 hrem
  exact ⟨hnotdel, writeIncremental_pairs_preserved desired w res wfin
    (existing.id, some u) hrun hpair hnotdel⟩

theorem c6_identity_preservation_witness :
    (BookmarkNode.mk "0" "b" (some "u") none).id ∉
      (computeChanges [BookmarkNode.mk "d" "b" (some "u") none]
        (buildBrowserIndex
          ⟨[BookmarkNode.mk "0" "b" (some "u") none], 0⟩)).toDelete ∧
    ((BookmarkNode.mk "0" "b" (some "u") none).id, some "u") ∈ idUrlPairs
      [BookmarkNode.mk "0" "b" (some "u") none] := by
  have hrun : writeBookmarksIncremental
      [BookmarkNode.mk "d" "b" (some "u") none]
      ⟨[BookmarkNode.mk "0" "b" (some "u") none], 0⟩ =
      ({ success := true, changes := 0, errors := [] },
       ⟨[BookmarkNode.mk "0" "b" (some "u") none], 0⟩) := by
    simp [writeBookmarksIncremental, buildBrowserIndex, buildTraverse,
      getRootFolders, computeChanges, processBookmarkTree, traverseRemote,
      classifyUrlNode, emptyChangesAcc, computeDeletes, mapSet, mapGet,
      deletePhase, updatePhase, movePhase, reorderBatches, groupReorder,
      createPhase, setAdd, BookmarkNode.id, BookmarkNode.title,
      BookmarkNode.url, BookmarkNode.children, BookmarkLocation.parentPath,
      BookmarkLocation.index]
  exact c6_identity_preservation
    [BookmarkNode.mk "d" "b" (some "u") none]
    ⟨[BookmarkNode.mk "0" "b" (some "u") none], 0⟩
    { success := true, changes := 0, errors := [] }
    ⟨[BookmarkNode.mk "0" "b" (some "u") none], 0⟩
    "u" (BookmarkNode.mk "0" "b" (some "u") none)
    (by simp [wfNodes])
    (by simp [idsOf, allNodes, BookmarkNode.id])
    (by simp [urlOccurrences])
    (by simp [buildBrowserIndex, buildTraverse, mapSet, mapGet, setAdd,
      BookmarkNode.id, BookmarkNode.title, BookmarkNode.url,
      BookmarkNode.children])
    hrun

theorem classifyUrlNode_toCreate (bidx : BrowserBookmarkIndex)
    (node : BookmarkNode) (uu : String) (pp : List String) (pos : Nat)
    (acc : ChangesAcc) :
    (classifyUrlNode bidx node uu pp pos acc).toCreate =
      match mapGet bidx.byUrl uu with
      | none => acc.toCreate ++ [⟨node, pp, pos⟩]
      | some _ => acc.toCreate := by
  unfold classifyUrlNode
  rcases mapGet bidx.byUrl uu with _ | existing
  · rfl
  · simp only []
    split <;> split <;> first
      | rfl
      | (split <;> rfl)

theorem traverseRemote_toCreate_mono (bidx : BrowserBookmarkIndex)
    (nodes : List BookmarkNode) :
    ∀ (pp : List String) (pos : Nat) (acc : ChangesAcc) (x : CreateItem),
      x ∈ acc.toCreate → x ∈ (traverseRemote bidx nodes pp pos acc).toCreate := by
  induction nodes using bnodeList_ind with
  | hnil =>
    intro pp pos acc x hx
    simpa [traverseRemote] using hx
  | hcons i t u c rest ihc ihr =>
    intro pp pos acc x hx
    rcases u with _ | uu
    · rcases c with _ | cs
      · simp only [traverseRemote]
        exact ihr _ _ _ x hx
      · simp only [traverseRemote]
        exact ihr _ _ _ x (ihc cs rfl _ _ _ x hx)
    · simp only [traverseRemote]
      refine ihr _ _ _ x ?_
      rw [classifyUrlNode_toCreate]
      rcases mapGet bidx.byUrl uu with _ | e
      · exact List.mem_append.mpr (Or.inl hx)
      · exact hx

theorem processBookmarkTree_toCreate_mono (bidx : BrowserBookmarkIndex)
    (nodes : List BookmarkNode) :
    ∀ (pos : Nat) (acc : ChangesAcc) (x : CreateItem),
      x ∈ acc.toCreate →
      x ∈ (processBookmarkTree bidx nodes pos acc).toCreate := by
  induction nodes using bnodeList_ind with
  | hnil =>
    intro pos acc x hx
    simpa [processBookmarkTree] using hx
  | hcons i t u c rest ihc ihr =>
    intro pos acc x hx
    rcases u with _ | uu
    · rcases c with _ | cs
      · simp only [processBookmarkTree]
        rw [if_neg (by simp), if_neg (by simp)]
        exact ihr _ _ x hx
      · by_cases ht : t = ""
        · subst ht
          simp only [processBookmarkTree]
          rw [if_pos (by simp)]
          exact ihr _ _ x (ihc cs rfl _ _ x hx)
        · simp only [processBookmarkTree]
          rw [if_neg (by simp [ht]), if_pos (by simp)]
          exact ihr _ _ x (traverseRemote_toCreate_mono bidx cs _ _ _ x hx)
    · rcases c with _ | cs
      · simp only [processBookmarkTree]
        rw [if_neg (by simp), if_neg (by simp)]
        refine ihr _ _ x ?_
        rw [classifyUrlNode_toCreate]
        rcases mapGet bidx.byUrl uu with _ | e
        · exact List.mem_append.mpr (Or.inl hx)
        · exact hx
      · by_cases ht : t = ""
        · subst ht
          simp only [processBookmarkTree]
          rw [if_pos (by simp)]
          exact ihr _ _ x (ihc cs rfl _ _ x hx)
        · simp only [processBookmarkTree]
          rw [if_neg (by simp [ht]), if_neg (by simp)]
          refine ihr _ _ x ?_
          rw [classifyUrlNode_toCreate]
          rcases mapGet bidx.byUrl uu with _ | e
          · exact List.mem_append.mpr (Or.inl hx)
          · exact hx

theorem traverseRemote_creates (bidx : BrowserBookmarkIndex)
    (nodes : List BookmarkNode) :
    ∀ (pp : List String) (pos : Nat) (acc : ChangesAcc) (x : String),
      wfNodes nodes = true →
      mapGet bidx.byUrl x = none →
      x ∈ urlOccurrences nodes →
      ∃ item, item ∈ (traverseRemote bidx nodes pp pos acc).toCreate ∧
        item.node.url = some x := by
  induction nodes using bnodeList_ind with
  | hnil =>
    intro pp pos acc x _ _ hx
    simp [urlOccurrences] at hx
  | hcons i t u c rest ihc ihr =>
    intro pp pos acc x hwf hmiss hx
    rcases u with _ | uu
    · rcases c with _ | cs
      · simp [wfNodes] at hwf
        simp [urlOccurrences] at hx
        simp only [traverseRemote]
        exact ihr _ _ _ x hwf hmiss hx
      · simp [wfNodes] at hwf
        simp [urlOccurrences] at hx
        simp only [traverseRemote]
        rcases hx with hx | hx
        · obtain ⟨item, hmem, hurl⟩ := ihc cs rfl (pp ++ [t]) 0 _ x hwf.1 hmiss hx
          exact ⟨item, traverseRemote_toCreate_mono bidx rest _ _ _ item hmem, hurl⟩
        · exact ihr _ _ _ x hwf.2 hmiss hx
    · rcases c with _ | cs
      · simp [wfNodes] at hwf
        simp [urlOccurrences] at hx
        simp only [traverseRemote]
        rcases hx with hx | hx
        · subst hx
          refine ⟨⟨BookmarkNode.mk i t (some x) none, pp, pos⟩, ?_, by
            simp [BookmarkNode.url]⟩
          refine traverseRemote_toCreate_mono bidx rest _ _ _ _ ?_
          rw [classifyUrlNode_toCreate, hmiss]
          exact List.mem_append.mpr (Or.inr (by simp))
        · exact ihr _ _ _ x hwf hmiss hx
      · simp [wfNodes] at hwf

theorem processBookmarkTree_creates (bidx : BrowserBookmarkIndex)
    (nodes : List BookmarkNode) :
    ∀ (pos : Nat) (acc : ChangesAcc) (x : String),
      wfNodes nodes = true →
      mapGet bidx.byUrl x = none →
      x ∈ urlOccurrences nodes →
      ∃ item, item ∈ (processBookmarkTree bidx nodes pos acc).toCreate ∧
        item.node.url = some x := by
  induction nodes using bnodeList_ind with
  | hnil =>
    intro pos acc x _ _ hx
    simp [urlOccurrences] at hx
  | hcons i t u c rest ihc ihr =>
    intro pos acc x hwf hmiss hx
    rcases u with _ | uu
    · rcases c with _ | cs
      · simp [wfNodes] at hwf
        simp [urlOccurrences] at hx
        simp only [processBookmarkTree]
        rw [if_neg (by simp), if_neg (by simp)]
        exact ihr _ _ x hwf hmiss hx
      · by_cases ht : t = ""
        · subst ht
          simp [wfNodes] at hwf
          simp [urlOccurrences] at hx
          simp only [processBookmarkTree]
          rw [if_pos (by simp)]
          rcases hx with hx | hx
          · obtain ⟨item, hmem, hurl⟩ := ihc cs rfl 0 _ x hwf.1 hmiss hx
            exact ⟨item,
              processBookmarkTree_toCreate_mono bidx rest _ _ item hmem, hurl⟩
          · exact ihr _ _ x hwf.2 hmiss hx
        · simp [wfNodes] at hwf
          simp [urlOccurrences] at hx
          simp only [processBookmarkTree]
          rw [if_neg (by simp [ht]), if_pos (by simp)]
          rcases hx with hx | hx
          · obtain ⟨item, hmem, hurl⟩ :=
              traverseRemote_creates bidx cs [t] 0 _ x hwf.1 hmiss hx
            exact ⟨item,
              processBookmarkTree_toCreate_mono bidx rest _ _ item hmem, hurl⟩
          · exact ihr _ _ x hwf.2 hmiss hx
    · rcases c with _ | cs
      · simp [wfNodes] at hwf
        simp [urlOccurrences] at hx
        simp only [processBookmarkTree]
        rw [if_neg (by simp), if_neg (by simp)]
        rcases hx with hx | hx
        · subst hx
          refine ⟨⟨BookmarkNode.mk i t (some x) none, [], pos⟩, ?_, by
            simp [BookmarkNode.url]⟩
          refine processBookmarkTree_toCreate_mono bidx rest _ _ _ ?_
          rw [classifyUrlNode_toCreate, hmiss]
          exact List.mem_append.mpr (Or.inr (by simp))
        · exact ihr _ _ x hwf hmiss hx
      · simp [wfNodes] at hwf

theorem collectFailures_cons_applied (k : OpKind) (tr : List OpOutcome) :
    collectFailures (OpOutcome.applied k :: tr) = collectFailures tr := by
  simp [collectFailures]

theorem collectFailures_cons_failed (k : OpKind) (m : String)
    (tr : List OpOutcome) :
    collectFailures (OpOutcome.failed k m :: tr) = m :: collectFailures tr := by
  simp [collectFailures]

theorem createPhaseTrace_pairs (items : List CreateItem) (w : World)
    (bidx : BrowserBookmarkIndex) (rootFolders : List (List String × String))
    (p : String × Option String) (hp : p ∈ idUrlPairs w.tree) :
    p ∈ idUrlPairs (createPhaseTrace items w bidx rootFolders).2.1.tree := by
  have h := createPhase_pairs items w bidx rootFolders 0 [] p hp
  rw [createPhase_trace] at h
  simpa using h

theorem createPhaseTrace_all_placed (items : List CreateItem) :
    ∀ (w : World) (bidx : BrowserBookmarkIndex)
      (rootFolders : List (List String × String)) (tr : List OpOutcome)
      (w2 : World) (bidx2 : BrowserBookmarkIndex),
      createPhaseTrace items w bidx rootFolders = (tr, w2, bidx2) →
      collectFailures tr = [] →
      OpOutcome.skipped OpKind.createOp ∉ tr →
      ∀ item ∈ items, ∃ i, (i, item.node.url) ∈ idUrlPairs w2.tree := by
  induction items with
  | nil =>
    intro w bidx rf tr w2 bidx2 _ _ _ item hitem
    simp at hitem
  | cons hd rest ih =>
    intro w bidx rf tr w2 bidx2 htr hfail hskip item hitem
    rcases h : ensureParentFolder hd.parentPath w bidx rf with ⟨eres, w1, bidx1⟩
    rcases eres with pid | _ | _
    · rcases h2 : createNode w1 pid hd.node.title hd.node.url (some hd.index)
        with _ | ⟨newId, w2p⟩
      · simp only [createPhaseTrace, h, h2] at htr
        rcases h3 : createPhaseTrace rest w1 bidx1 rf with ⟨tr3, w3, bidx3⟩
        rw [h3] at htr
        simp only [Prod.mk.injEq] at htr
        obtain ⟨htr1, _, _⟩ := htr
        rw [← htr1, collectFailures_cons_failed] at hfail
        simp at hfail
      · simp only [createPhaseTrace, h, h2] at htr
        rcases h3 : createPhaseTrace rest w2p bidx1 rf with ⟨tr3, w3, bidx3⟩
        rw [h3] at htr
        simp only [Prod.mk.injEq] at htr
        obtain ⟨htr1, htr2, _⟩ := htr
        rcases List.mem_cons.mp hitem with hh | hh
        · subst hh
          have hmem : (newId, item.node.url) ∈ idUrlPairs w2p.tree :=
            (createNode_pairs _ _ _ _ _ _ _ h2).mem_iff.mpr
              (List.mem_cons_self _ _)
          have hpre := createPhaseTrace_pairs rest w2p bidx1 rf _ hmem
          rw [h3] at hpre
          simp only [] at hpre
          rw [htr2] at hpre
          exact ⟨newId, hpre⟩
        · rw [← htr1, collectFailures_cons_applied] at hfail
          rw [← htr1] at hskip
          have hskip2 : OpOutcome.skipped OpKind.createOp ∉ tr3 := by
            intro hc
            exact hskip (List.mem_cons_of_mem _ hc)
          obtain ⟨i, hi⟩ := ih w2p bidx1 rf tr3 w3 bidx3 h3 hfail hskip2 item hh
          rw [htr2] at hi
          exact ⟨i, hi⟩
    · simp only [createPhaseTrace, h] at htr
      rcases h3 : createPhaseTrace rest w1 bidx1 rf with ⟨tr3, w3, bidx3⟩
      rw [h3] at htr
      simp only [Prod.mk.injEq] at htr
      obtain ⟨htr1, _, _⟩ := htr
      rw [← htr1] at hskip
      exact absurd (List.mem_cons_self _ _) hskip
    · simp only [createPhaseTrace, h] at htr
      rcases h3 : createPhaseTrace rest w1 bidx1 rf with ⟨tr3, w3, bidx3⟩
      rw [h3] at htr
      simp only [Prod.mk.injEq] at htr
      obtain ⟨htr1, _, _⟩ := htr
      rw [← htr1, collectFailures_cons_failed] at hfail
      simp at hfail

theorem mergeSortSingle {α : Type} (a : α) (r : α → α → Bool) :
    [a].mergeSort r = [a] :=
  List.perm_singleton.mp (List.mergeSort_perm [a] r)

/-- Counterexample to C1 as stated: reconciling a desired tree consisting of
one root-level bookmark against a live tree with an empty untitled root
reports `success = true` (the planned creation's empty parent path resolves
to no folder, so the item is skipped silently), yet the desired URL is
absent from the live tree afterwards — the URL sets do not converge. -/
theorem c1_counterexample :
    (writeBookmarksIncremental
        [BookmarkNode.mk "x" "t" (some "https://a") none]
        ⟨[BookmarkNode.mk "0" "" none (some [])], 0⟩).1.success = true ∧
    "https://a" ∈ urlOccurrences
      [BookmarkNode.mk "x" "t" (some "https://a") none] ∧
    "https://a" ∉ urlOccurrences
      (writeBookmarksIncremental
        [BookmarkNode.mk "x" "t" (some "https://a") none]
        ⟨[BookmarkNode.mk "0" "" none (some [])], 0⟩).2.tree := by
  have hrun : writeBookmarksIncremental
      [BookmarkNode.mk "x" "t" (some "https://a") none]
      ⟨[BookmarkNode.mk "0" "" none (some [])], 0⟩ =
      ({ success := true, changes := 0, errors := [] },
       ⟨[BookmarkNode.mk "0" "" none (some [])], 0⟩) := by
    simp [writeBookmarksIncremental, buildBrowserIndex, buildTraverse,
      getRootFolders, computeChanges, processBookmarkTree, traverseRemote,
      classifyUrlNode, emptyChangesAcc, computeDeletes, mapSet, mapGet,
      deletePhase, updatePhase, movePhase, reorderBatches, groupReorder,
      createPhase, ensureParentFolder, mergeSortSingle, setAdd,
      BookmarkNode.id, BookmarkNode.title, BookmarkNode.url,
      BookmarkNode.children]
  rw [hrun]
  exact ⟨rfl, by simp [urlOccurrences], by simp [urlOccurrences]⟩

/-- **C1 (amended).** `success = true` alone does not make the live tree
converge to the desired tree, because create (and move) items whose parent
folder path resolves to null — in particular root-level desired bookmarks,
whose parent path is empty — are skipped silently without an error
(see the counterexample).  The URL-direction guarantee that does hold: for
a well-formed desired tree and a live tree with duplicate-free ids, after a
run with `success = true` in which no planned creation was silently
skipped, every URL of the desired tree is present in the final tree —
either its live node survived under its old id, or an applied creation
placed a fresh node carrying it. -/
theorem c1_reconciliation_convergence (desired : List BookmarkNode)
    (w : World) (res : WriteResult) (wfin : World)
    (trD trU trM trR trC : List OpOutcome) (wtr : World) (u : String)
    (hwf : wfNodes desired = true)
    (hnd : (idsOf w.tree).Nodup)
    (hrun : writeBookmarksIncremental desired w = (res, wfin))
    (htr : writeTrace desired w = (trD, trU, trM, trR, trC, wtr))
    (hsucc : res.success = true)
    (hnoskip : OpOutcome.skipped OpKind.createOp ∉ trC)
    (hdes : u ∈ urlOccurrences desired) :
    ∃ i, (i, some u) ∈ idUrlPairs wfin.tree := by
  have hrun0 := hrun
  rcases hD : deletePhaseTrace (computeChanges desired (buildBrowserIndex w)).toDelete w
    with ⟨tD, w1⟩
  rcases hU : updatePhaseTrace (computeChanges desired (buildBrowserIndex w)).toUpdate w1
    with ⟨tU, w2⟩
  rcases hM : movePhaseTrace (computeChanges desired (buildBrowserIndex w)).toMove w2
    (buildBrowserIndex w) (getRootFolders w) with ⟨tM, w3, bidx3⟩
  rcases hR : reorderBatchesTrace
    (groupReorder (computeChanges desired (buildBrowserIndex w)).toReorder) w3 bidx3
    (getRootFolders w) with ⟨tR, w4, bidx4⟩
  rcases hC : createPhaseTrace
    ((computeChanges desired (buildBrowserIndex w)).toCreate.mergeSort
      (fun a b => Nat.ble a.index b.index)) w4 bidx4 (getRootFolders w)
    with ⟨tC, w5, bidx5⟩
  unfold writeTrace at htr
  simp only [] at htr
  rw [hD, hU, hM, hR, hC] at htr
  obtain ⟨rfl, rfl, rfl, rfl, rfl, rfl⟩ :
      trD = tD ∧ trU = tU ∧ trM = tM ∧ trR = tR ∧ trC = tC ∧ wtr = w5 := by
    have h1 := htr
    simp only [Prod.mk.injEq] at h1
    tauto
  unfold writeBookmarksIncremental at hrun
  simp only [] at hrun
  rw [deletePhase_trace] at hrun
  rw [hD] at hrun
  simp only at hrun
  rw [updatePhase_trace] at hrun
  rw [hU] at hrun
  simp only at hrun
  rw [movePhase_trace] at hrun
  rw [hM] at hrun
  simp only at hrun
  rw [reorderBatches_trace] at hrun
  rw [hR] at hrun
  simp only at hrun
  rw [createPhase_trace] at hrun
  rw [hC] at hrun
  simp only [Prod.mk.injEq] at hrun
  obtain ⟨hres, hw⟩ := hrun
  subst hres
  subst hw
  simp only [List.nil_append, List.isEmpty_iff, List.append_eq_nil] at hsucc
  have hfailC : collectFailures trC = [] := hsucc.2
  rcases hby : mapGet (buildBrowserIndex w).byUrl u with _ | existing
  · obtain ⟨item, hitem, hurl⟩ := processBookmarkTree_creates
      (buildBrowserIndex w) desired 0 emptyChangesAcc u hwf hby hdes
    have hsorted : item ∈ (computeChanges desired (buildBrowserIndex w)).toCreate.mergeSort
        (fun a b => Nat.ble a.index b.index) := by
      rw [(List.mergeSort_perm _ _).mem_iff]
      simpa [computeChanges] using hitem
    obtain ⟨i, hi⟩ := createPhaseTrace_all_placed _ w4 bidx4 (getRootFolders w)
      trC wtr bidx5 hC hfailC hnoskip item hsorted
    rw [hurl] at hi
    exact ⟨i, hi⟩
  · have hmem : (u, existing) ∈ (buildBrowserIndex w).byUrl :=
      mem_of_mapGet _ _ _ hby
    have hco := buildTraverse_byUrl_sub w.tree [] 0 ⟨[], [], [], []⟩ u existing
      (by simpa [buildBrowserIndex] using hmem)
    rcases hco with h0 | ⟨hurl, hpair⟩
    · simp at h0
    rw [hurl] at hpair
    have hrem : u ∈ (processBookmarkTree (buildBrowserIndex w) desired 0
        emptyChangesAcc).remoteUrls :=
      processBookmarkTree_urls (buildBrowserIndex w) desired 0 emptyChangesAcc u
        hwf (Or.inr hdes)
    have hnotdel : existing.id ∉
        (computeChanges desired (buildBrowserIndex w)).toDelete := by
      intro hdel
      simp only [computeChanges] at hdel
      rw [mem_computeDeletes] at hdel
      obtain ⟨url2, n2, hmem2, hnotin2, hid2⟩ := hdel
      have hco2 := buildTraverse_byUrl_sub w.tree [] 0 ⟨[], [], [], []⟩ url2 n2
        (by simpa [buildBrowserIndex] using hmem2)
      rcases hco2 with h0 | ⟨hurl2, hpair2⟩
      · simp at h0
      rw [hurl2, hid2] at hpair2
      have heq := idUrlPairs_unique w.tree hnd existing.id (some u) (some url2)
        hpair hpair2
      have heq2 := Option.some.inj heq
      subst heq2
      exact hnotin2 hrem
    exact ⟨existing.id, writeIncremental_pairs_preserved desired w _ wtr
      (existing.id, some u) hrun0 hpair hnotdel⟩

theorem c1_reconciliation_convergence_witness :
    ∃ i, (i, some "https://a") ∈ idUrlPairs
      [BookmarkNode.mk "1" "f" none
        (some [BookmarkNode.mk "new:0" "b" (some "https://a") none])] := by
  have hrun : writeBookmarksIncremental
      [BookmarkNode.mk "d1" "f" none
        (some [BookmarkNode.mk "d2" "b" (some "https://a") none])]
      ⟨[BookmarkNode.mk "1" "f" none (some [])], 0⟩ =
      ({ success := true, changes := 1, errors := [] },
       ⟨[BookmarkNode.mk "1" "f" none
          (some [BookmarkNode.mk "new:0" "b" (some "https://a") none])], 1⟩) := by
    simp [writeBookmarksIncremental, buildBrowserIndex, buildTraverse,
      getRootFolders, computeChanges, processBookmarkTree, traverseRemote,
      classifyUrlNode, emptyChangesAcc, computeDeletes, mapSet, mapGet,
      deletePhase, updatePhase, movePhase, reorderBatches, groupReorder,
      createPhase, ensureParentFolder, createNode, insertUnder, insertAt,
      mergeSortSingle, setAdd, BookmarkNode.id, BookmarkNode.title,
      BookmarkNode.url, BookmarkNode.children]
    rfl
  have htr : writeTrace
      [BookmarkNode.mk "d1" "f" none
        (some [BookmarkNode.mk "d2" "b" (some "https://a") none])]
      ⟨[BookmarkNode.mk "1" "f" none (some [])], 0⟩ =
      ([], [], [], [], [OpOutcome.applied OpKind.createOp],
       ⟨[BookmarkNode.mk "1" "f" none
          (some [BookmarkNode.mk "new:0" "b" (some "https://a") none])], 1⟩) := by
    simp [writeTrace, buildBrowserIndex, buildTraverse, getRootFolders,
      computeChanges, processBookmarkTree, traverseRemote, classifyUrlNode,
      emptyChangesAcc, computeDeletes, mapSet, mapGet, deletePhaseTrace,
      updatePhaseTrace, movePhaseTrace, reorderBatchesTrace,
      createPhaseTrace, ensureParentFolder, createNode, insertUnder,
      insertAt, mergeSortSingle, setAdd, BookmarkNode.id,
      BookmarkNode.title, BookmarkNode.url, BookmarkNode.children]
    rfl
  exact c1_reconciliation_convergence
    [BookmarkNode.mk "d1" "f" none
      (some [BookmarkNode.mk "d2" "b" (some "https://a") none])]
    ⟨[BookmarkNode.mk "1" "f" none (some [])], 0⟩
    { success := true, changes := 1, errors := [] }
    ⟨[BookmarkNode.mk "1" "f" none
       (some [BookmarkNode.mk "new:0" "b" (some "https://a") none])], 1⟩
    [] [] [] [] [OpOutcome.applied OpKind.createOp]
    ⟨[BookmarkNode.mk "1" "f" none
       (some [BookmarkNode.mk "new:0" "b" (some "https://a") none])], 1⟩
    "https://a"
    (by simp [wfNodes])
    (by simp [idsOf, allNodes, BookmarkNode.id])
    hrun htr rfl (by simp) (by simp [urlOccurrences])

end OneBookmark
